import Mathlib

/-!
# fuse-snmp: the OID/inode cache and the virtual directory and file nodes

A shallow embedding of `main.go`.  The process-wide variable `snmp` becomes an
explicit `SnmpManager` argument, the result list of the upstream `BulkWalk`
call becomes an argument of `LoadWalk`, and log lines are left out (they touch
neither the state nor a return value).

Conventions
* `uint64` is a `Nat` below `2 ^ 64`; the one arithmetic operation on it,
  `s.currentId++`, wraps explicitly.
* A `[]byte` is a `List UInt8`.  A Go `string` is a sequence of bytes too:
  the string an `OctetString` value holds is whatever bytes the agent sent,
  so `Value.str` carries a `List UInt8`, and what `fmt.Sprintf` builds from a
  value is a `List UInt8` as well.  Text that the program and its libraries
  write themselves (an OID name, the name of a type tag, a literal) is a Lean
  `String`, and `bytesOf` gives its bytes, the UTF-8 encoding.
* A Go map is an association list with unique keys (`GoMap`); indexing a
  missing key yields the zero value of the element type, as in Go.
* Statements about the cache carry the proviso that it holds fewer than
  `2 ^ 64 - 1` names: up to there the counter has not wrapped, and no map in
  a 64-bit address space is larger.
* A Go `(value, error)` result is a pair whose second component is
  `Option fuse.Errno` (`none` is the `nil` error).  A body that can hit a
  run-time panic returns `Option`, `none` standing for the panic.
-/

namespace FuseSnmp

/-! ## Go maps -/

/-- Go `map[κ]ν`, kept as an association list in insertion order. -/
abbrev GoMap (κ : Type) (ν : Type) := List (κ × ν)

namespace GoMap

variable {κ ν : Type} [DecidableEq κ]

/-- The comma-ok form `v, ok := m[k]`, as an option. -/
def read : GoMap κ ν → κ → Option ν
  | [], _ => none
  | (k', v) :: m, k => if k' = k then some v else read m k

/-- The plain form `m[k]`: the zero value `zero` when `k` is missing. -/
def index (zero : ν) (m : GoMap κ ν) (k : κ) : ν :=
  (read m k).getD zero

/-- The assignment `m[k] = v`: overwrite in place, or add a new key. -/
def write : GoMap κ ν → κ → ν → GoMap κ ν
  | [], k, v => [(k, v)]
  | (k', v') :: m, k, v => if k' = k then (k', v) :: m else (k', v') :: write m k v

/-- The keys of the map, in storage order. -/
def keys (m : GoMap κ ν) : List κ := m.map Prod.fst

/-- Go's `len(m)`; it counts the entries, the keys of a map being distinct. -/
def len (m : GoMap κ ν) : Nat := m.length

end GoMap

/-! ## The data the program works on -/

/-- The type tag `gosnmp.Asn1BER`, a byte. -/
abbrev Asn1BER := Fin 256

/-- Zero value of the tag, `gosnmp.EndOfContents`. -/
def EndOfContents : Asn1BER := 0x00
/-- Tag `gosnmp.Integer`. -/
def Integer : Asn1BER := 0x02
/-- Tag `gosnmp.OctetString`. -/
def OctetString : Asn1BER := 0x04
/-- Tag `gosnmp.ObjectIdentifier`. -/
def ObjectIdentifier : Asn1BER := 0x06
/-- Tag `gosnmp.Counter32`. -/
def Counter32 : Asn1BER := 0x41
/-- Tag `gosnmp.TimeTicks`. -/
def TimeTicks : Asn1BER := 0x43
/-- Tag `gosnmp.Counter64`. -/
def Counter64 : Asn1BER := 0x46

/-- The dynamic values a `gosnmp.SnmpPDU.Value` (an `interface{}`) holds. -/
inductive Value where
  /-- The nil interface value. -/
  | null
  /-- A Go `string`, given by its bytes (any byte sequence). -/
  | str (s : List UInt8)
  /-- A Go `int`. -/
  | int (n : Int)
  /-- A Go `uint64`. -/
  | uint64 (n : Nat)
  /-- A Go `[]int` (a decoded object identifier). -/
  | ints (xs : List Int)
  /-- A Go `net.IP`, a byte slice. -/
  | ip (bs : List UInt8)
  deriving DecidableEq

/-- Record `gosnmp.SnmpPDU`; `Type_` is its field `Type`. -/
structure SnmpPDU where
  Name : String
  Type_ : Asn1BER
  Value : Value
  deriving DecidableEq

/-- Record `SnmpCacheEntry`. -/
structure SnmpCacheEntry where
  pdu : SnmpPDU
  inode : Nat
  deriving DecidableEq

/-- Record `SnmpManager`, without the session handle `client`. -/
structure SnmpManager where
  currentId : Nat
  cache : GoMap String SnmpCacheEntry
  cacheMap : GoMap Nat String
  deriving DecidableEq

/-- Zero value of `gosnmp.SnmpPDU`. -/
def zeroPDU : SnmpPDU := ⟨"", EndOfContents, Value.null⟩

/-- Zero value of `SnmpCacheEntry`. -/
def zeroEntry : SnmpCacheEntry := ⟨zeroPDU, 0⟩

/-- The expression `s.cache[name]`. -/
def SnmpManager.cacheAt (s : SnmpManager) (name : String) : SnmpCacheEntry :=
  GoMap.index zeroEntry s.cache name

/-- The expression `s.cacheMap[inode]`. -/
def SnmpManager.cacheMapAt (s : SnmpManager) (inode : Nat) : String :=
  GoMap.index "" s.cacheMap inode

/-- Number of values of a `uint64`. -/
def uint64Size : Nat := 2 ^ 64

/-- The state `main` sets up before the first `LoadWalk`. -/
def initial : SnmpManager := ⟨1, [], []⟩

/-! ## The cache manager -/

/-- One turn of the `for _, v := range results` loop of `LoadWalk`. -/
def loadWalkStep (s : SnmpManager) (v : SnmpPDU) : SnmpManager :=
  if (s.cacheAt v.Name).inode > 0 then
    s
  else
    let entry : SnmpCacheEntry := ⟨v, s.currentId⟩
    { currentId := (s.currentId + 1) % uint64Size
      cache := GoMap.write s.cache v.Name entry
      cacheMap := GoMap.write s.cacheMap entry.inode v.Name }

/-- Method `SnmpManager.LoadWalk` on the path where `BulkWalk` succeeded with
`results` (on its error the process exits); the returned error is always nil. -/
def LoadWalk (s : SnmpManager) (results : List SnmpPDU) : SnmpManager :=
  results.foldl loadWalkStep s

/-- States the program can be in: the one `main` sets up, and any state a
`LoadWalk` call produces from one of them. -/
inductive Reachable : SnmpManager → Prop where
  | init : Reachable initial
  | walk {s : SnmpManager} (results : List SnmpPDU) :
      Reachable s → Reachable (LoadWalk s results)

/-! ## The filesystem nodes -/

namespace fuse

/-- The error values of `bazil.org/fuse` the program returns. -/
inductive Errno where
  | ENOENT
  deriving DecidableEq

/-- The directory entry kinds of `bazil.org/fuse` the program uses. -/
inductive DirentType where
  | DT_File
  deriving DecidableEq

/-- Record `fuse.Dirent`, the fields the program sets (`Type_` is `Type`). -/
structure Dirent where
  Inode : Nat
  Name : String
  Type_ : DirentType
  deriving DecidableEq

/-- Record `fuse.Attr`, the fields the program sets. -/
structure Attr where
  Inode : Nat
  Size : Nat
  Mode : Nat
  deriving DecidableEq

end fuse

/-- Record `File`. -/
structure File where
  Inode : Nat
  deriving DecidableEq

/-- The bit `os.ModeDir`. -/
def osModeDir : Nat := 2 ^ 31

/-- Method `Dir.Attr`: fills the attribute record, returns a nil error. -/
def Dir.Attr (a : fuse.Attr) : fuse.Attr × Option fuse.Errno :=
  ({ a with Inode := 1, Mode := osModeDir ||| 0o555 }, none)

/-- Method `Dir.Lookup`. -/
def Dir.Lookup (snmp : SnmpManager) (name : String) : Option File × Option fuse.Errno :=
  if (snmp.cacheAt name).inode > 0 then
    (some ⟨(snmp.cacheAt name).inode⟩, none)
  else
    (none, some fuse.Errno.ENOENT)

/-- Method `Dir.ReadDirAll`; the range over the map is taken in storage order
(Go leaves the order open). -/
def Dir.ReadDirAll (snmp : SnmpManager) : List fuse.Dirent × Option fuse.Errno :=
  (snmp.cache.map fun kv => ⟨kv.2.inode, kv.2.pdu.Name, fuse.DirentType.DT_File⟩, none)

/-- Method `File.Attr`: fills the attribute record, returns a nil error. -/
def File.Attr (f : File) (a : fuse.Attr) : fuse.Attr × Option fuse.Errno :=
  ({ a with Inode := f.Inode, Size := 100, Mode := 0o444 }, none)

/-- The conversion `[]byte(s)`. -/
def bytesOf (s : String) : List UInt8 :=
  s.data.flatMap String.utf8EncodeChar

/-- The bytes of the string `fmt.Sprintf("%d", v)` builds for an interface
value `v`. -/
def sprintfD : Value → List UInt8
  | Value.null => bytesOf "%!d(<nil>)"
  | Value.str s => bytesOf "%!d(string=" ++ s ++ bytesOf ")"
  | Value.int n => bytesOf (toString n)
  | Value.uint64 n => bytesOf (toString n)
  | Value.ints xs => bytesOf ("[" ++ " ".intercalate (xs.map toString) ++ "]")
  | Value.ip bs => bytesOf ("[" ++ " ".intercalate (bs.map fun b => toString b.toNat) ++ "]")

/-- Method `File.ReadAll`.  `typeString` is the library method
`gosnmp.Asn1BER.String`; `none` is the panic of the failed type assertion
`entry.Value.(string)`. -/
def File.ReadAll (typeString : Asn1BER → String) (snmp : SnmpManager) (f : File) :
    Option (List UInt8 × Option fuse.Errno) :=
  let oid := snmp.cacheMapAt f.Inode
  let entry := (snmp.cacheAt oid).pdu
  if entry.Type_ = OctetString then
    match entry.Value with
    | Value.str v => some (v ++ bytesOf "\n", none)
    | _ => none
  else if entry.Type_ = TimeTicks then
    some (sprintfD entry.Value ++ bytesOf "\n", none)
  else if entry.Type_ = ObjectIdentifier then
    some (sprintfD entry.Value ++ bytesOf "\n", none)
  else
    some (bytesOf ("error unknown type: " ++ typeString entry.Type_), none)


/-! ## The invariant of the cache manager -/

/-- What holds of the manager as long as the inode counter has not wrapped:
the counter is one past the number of cached names, every cached entry has
an inode in `[1, currentId)`, is stored under its own name and is indexed by
`cacheMap`, and every `cacheMap` entry points at such an entry. -/
structure Inv (s : SnmpManager) : Prop where
  counter : s.currentId = GoMap.len s.cache + 1
  fwd : ∀ n e, GoMap.read s.cache n = some e →
    0 < e.inode ∧ e.inode < s.currentId ∧ GoMap.read s.cacheMap e.inode = some n ∧ e.pdu.Name = n
  bwd : ∀ i n, GoMap.read s.cacheMap i = some n →
    ∃ e, GoMap.read s.cache n = some e ∧ e.inode = i
  nodupCache : (GoMap.keys s.cache).Nodup
  nodupCacheMap : (GoMap.keys s.cacheMap).Nodup
  sameLen : GoMap.len s.cacheMap = GoMap.len s.cache

/-! ## Sample walks used to exercise the statements -/

/-- A walk with a text entry, a duration-tick entry, a repeated name and an
entry of a type `File.ReadAll` has no renderer for. -/
def sampleWalk : List SnmpPDU :=
  [⟨".1.3.6.1.2.1.1.1.0", OctetString, Value.str (bytesOf "test-system")⟩,
   ⟨".1.3.6.1.2.1.1.3.0", TimeTicks, Value.int 12345⟩,
   ⟨".1.3.6.1.2.1.1.1.0", OctetString, Value.str (bytesOf "renamed")⟩,
   ⟨".1.3.6.1.2.1.1.7.0", Integer, Value.int 72⟩]

/-- A second walk: one name of `sampleWalk` again and one new name. -/
def sampleRewalk : List SnmpPDU :=
  [⟨".1.3.6.1.2.1.1.3.0", TimeTicks, Value.int 99999⟩,
   ⟨".1.3.6.1.2.1.1.5.0", OctetString, Value.str (bytesOf "host")⟩]

/-- Scenario A of the specification: a walk of one text entry. -/
def scenarioA : List SnmpPDU :=
  [⟨".1.3.6.1.2.1.1.1.0", OctetString, Value.str (bytesOf "test-system")⟩]

/-- Scenario B of the specification: a walk of one duration-tick entry. -/
def scenarioB : List SnmpPDU :=
  [⟨".1.3.6.1.2.1.1.3.0", TimeTicks, Value.int 12345⟩]

/-- A walk of two counters, one of each width. -/
def counterWalk : List SnmpPDU :=
  [⟨".1.3.6.1.2.1.2.2.1.10.1", Counter32, Value.int 42⟩,
   ⟨".1.3.6.1.2.1.31.1.1.1.6.1", Counter64, Value.uint64 5000000000⟩]

/-- A walk whose first result is an `OctetString` of bytes that are no text. -/
def binaryWalk : List SnmpPDU :=
  [⟨".1.3.6.1.2.1.2.2.1.6.1", OctetString, Value.str [0x00, 0xff, 0x80]⟩,
   ⟨".1.3.6.1.2.1.1.1.0", OctetString, Value.str (bytesOf "x")⟩]

/-- The distinct names of a list, each at the place of its first occurrence. -/
def firstNames : List String → List String
  | [] => []
  | n :: ns => n :: (firstNames ns).filter fun m => m ≠ n

/-! ## Facts about Go maps -/

namespace GoMap

variable {κ ν : Type} [DecidableEq κ]

theorem read_write_self (m : GoMap κ ν) (k : κ) (v : ν) :
    read (write m k v) k = some v := by
  induction m with
  | nil => simp [write, read]
  | cons p m ih =>
    obtain ⟨k', v'⟩ := p
    by_cases h : k' = k
    · simp [write, read, h]
    · simp [write, read, h, ih]

theorem read_write_ne (m : GoMap κ ν) {k k' : κ} (v : ν) (h : k ≠ k') :
    read (write m k v) k' = read m k' := by
  induction m with
  | nil => simp [write, read, h]
  | cons p m ih =>
    obtain ⟨k₀, v₀⟩ := p
    by_cases h₀ : k₀ = k
    · subst h₀
      simp [write, read, h]
    · simp only [write, h₀, if_false, read, ih]

theorem write_of_read_none (m : GoMap κ ν) (k : κ) (v : ν) (h : read m k = none) :
    write m k v = m ++ [(k, v)] := by
  induction m with
  | nil => rfl
  | cons p m ih =>
    obtain ⟨k₀, v₀⟩ := p
    by_cases h₀ : k₀ = k
    · simp [read, h₀] at h
    · simp only [read, h₀, if_false] at h
      simp [write, h₀, ih h]

theorem len_write_ge (m : GoMap κ ν) (k : κ) (v : ν) :
    len m ≤ len (write m k v) := by
  induction m with
  | nil => simp [len, write]
  | cons p m ih =>
    obtain ⟨k₀, v₀⟩ := p
    by_cases h₀ : k₀ = k
    · simp [write, h₀, len]
    · simp only [len, List.length_cons, write, h₀, if_false] at ih ⊢
      omega

theorem len_write_of_read_none (m : GoMap κ ν) (k : κ) (v : ν) (h : read m k = none) :
    len (write m k v) = len m + 1 := by
  rw [write_of_read_none m k v h]
  simp [len]

theorem mem_keys_iff (m : GoMap κ ν) (k : κ) :
    k ∈ keys m ↔ ∃ v, read m k = some v := by
  induction m with
  | nil => simp [keys, read]
  | cons p m ih =>
    obtain ⟨k₀, v₀⟩ := p
    by_cases h₀ : k₀ = k
    · simp [keys, read, h₀]
    · have h₁ : ¬ k = k₀ := fun h => h₀ h.symm
      simpa [keys, read, h₀, h₁] using ih

theorem not_mem_keys_iff (m : GoMap κ ν) (k : κ) :
    k ∉ keys m ↔ read m k = none := by
  rw [mem_keys_iff]
  cases read m k <;> simp

theorem keys_write_of_read_none (m : GoMap κ ν) (k : κ) (v : ν) (h : read m k = none) :
    keys (write m k v) = keys m ++ [k] := by
  rw [write_of_read_none m k v h]
  simp [keys]

theorem nodup_keys_write_of_read_none (m : GoMap κ ν) (k : κ) (v : ν)
    (h : read m k = none) (hm : (keys m).Nodup) : (keys (write m k v)).Nodup := by
  rw [keys_write_of_read_none m k v h]
  have hk : k ∉ keys m := (not_mem_keys_iff m k).2 h
  exact List.Nodup.append hm (List.nodup_singleton k) (by simpa using hk)

theorem index_of_read_some {zero : ν} {m : GoMap κ ν} {k : κ} {v : ν}
    (h : read m k = some v) : index zero m k = v := by
  simp [index, h]

theorem index_of_read_none {zero : ν} {m : GoMap κ ν} {k : κ}
    (h : read m k = none) : index zero m k = zero := by
  simp [index, h]

end GoMap


/-! ## The invariant is kept by every walk -/

theorem uint64Size_eq : uint64Size = 18446744073709551616 := by
  norm_num [uint64Size]

theorem inv_initial : Inv initial where
  counter := rfl
  fwd := by intro n e h; simp [initial, GoMap.read] at h
  bwd := by intro i n h; simp [initial, GoMap.read] at h
  nodupCache := by simp [initial, GoMap.keys]
  nodupCacheMap := by simp [initial, GoMap.keys]
  sameLen := rfl

/-- The loop's test `entry.inode > 0` succeeds exactly on cached names. -/
theorem cacheAt_pos_iff {s : SnmpManager} (h : Inv s) (n : String) :
    0 < (s.cacheAt n).inode ↔ ∃ e, GoMap.read s.cache n = some e := by
  unfold SnmpManager.cacheAt
  cases hr : GoMap.read s.cache n with
  | none => simp [GoMap.index, hr, zeroEntry]
  | some e => simpa [GoMap.index, hr] using (h.fwd n e hr).1

theorem loadWalkStep_of_pos {s : SnmpManager} {v : SnmpPDU}
    (h : 0 < (s.cacheAt v.Name).inode) : loadWalkStep s v = s := by
  simp [loadWalkStep, h]

theorem loadWalkStep_of_not_pos {s : SnmpManager} {v : SnmpPDU}
    (h : ¬ 0 < (s.cacheAt v.Name).inode) :
    loadWalkStep s v =
      { currentId := (s.currentId + 1) % uint64Size
        cache := GoMap.write s.cache v.Name ⟨v, s.currentId⟩
        cacheMap := GoMap.write s.cacheMap s.currentId v.Name } := by
  simp [loadWalkStep, h]

theorem len_cache_loadWalkStep (s : SnmpManager) (v : SnmpPDU) :
    GoMap.len s.cache ≤ GoMap.len (loadWalkStep s v).cache := by
  by_cases h : 0 < (s.cacheAt v.Name).inode
  · rw [loadWalkStep_of_pos h]
  · rw [loadWalkStep_of_not_pos h]
    exact GoMap.len_write_ge _ _ _

theorem LoadWalk_nil (s : SnmpManager) : LoadWalk s [] = s := rfl

theorem LoadWalk_cons (s : SnmpManager) (v : SnmpPDU) (rs : List SnmpPDU) :
    LoadWalk s (v :: rs) = LoadWalk (loadWalkStep s v) rs := rfl

theorem LoadWalk_append (s : SnmpManager) (rs₁ rs₂ : List SnmpPDU) :
    LoadWalk s (rs₁ ++ rs₂) = LoadWalk (LoadWalk s rs₁) rs₂ := by
  simp [LoadWalk, List.foldl_append]

theorem len_cache_LoadWalk (s : SnmpManager) (rs : List SnmpPDU) :
    GoMap.len s.cache ≤ GoMap.len (LoadWalk s rs).cache := by
  induction rs generalizing s with
  | nil => exact le_refl _
  | cons v rs ih =>
    rw [LoadWalk_cons]
    exact le_trans (len_cache_loadWalkStep s v) (ih _)

/-- A name the loop does not pass keeps whatever the cache held for it. -/
theorem read_cache_loadWalkStep_of_ne (s : SnmpManager) (v : SnmpPDU) {n : String}
    (h : v.Name ≠ n) : GoMap.read (loadWalkStep s v).cache n = GoMap.read s.cache n := by
  by_cases hp : 0 < (s.cacheAt v.Name).inode
  · rw [loadWalkStep_of_pos hp]
  · rw [loadWalkStep_of_not_pos hp]
    exact GoMap.read_write_ne _ _ h

theorem read_cache_LoadWalk_of_not_mem (s : SnmpManager) (rs : List SnmpPDU) {n : String}
    (h : ∀ v ∈ rs, v.Name ≠ n) : GoMap.read (LoadWalk s rs).cache n = GoMap.read s.cache n := by
  induction rs generalizing s with
  | nil => rfl
  | cons v rs ih =>
    rw [LoadWalk_cons, ih _ (fun u hu => h u (List.mem_cons_of_mem _ hu))]
    exact read_cache_loadWalkStep_of_ne s v (h v (List.mem_cons_self _ _))

/-- One turn of the loop keeps the invariant, as long as the cache it leaves
is small enough for the counter not to have wrapped. -/
theorem inv_loadWalkStep {s : SnmpManager} (h : Inv s) (v : SnmpPDU)
    (hb : GoMap.len (loadWalkStep s v).cache < uint64Size - 1) : Inv (loadWalkStep s v) := by
  by_cases hp : 0 < (s.cacheAt v.Name).inode
  · rw [loadWalkStep_of_pos hp]; exact h
  · have hnone : GoMap.read s.cache v.Name = none := by
      cases hr : GoMap.read s.cache v.Name with
      | none => rfl
      | some e => exact absurd ((cacheAt_pos_iff h v.Name).2 ⟨e, hr⟩) hp
    have hmnone : GoMap.read s.cacheMap s.currentId = none := by
      cases hr : GoMap.read s.cacheMap s.currentId with
      | none => rfl
      | some n =>
        obtain ⟨e, he, hi⟩ := h.bwd _ _ hr
        have := (h.fwd n e he).2.1
        omega
    rw [loadWalkStep_of_not_pos hp] at hb ⊢
    simp only at hb
    rw [GoMap.len_write_of_read_none _ _ _ hnone] at hb
    have hc := h.counter
    have hU := uint64Size_eq
    have hmod : (s.currentId + 1) % uint64Size = s.currentId + 1 :=
      Nat.mod_eq_of_lt (by omega)
    refine ⟨?_, ?_, ?_, ?_, ?_, ?_⟩
    · show (s.currentId + 1) % uint64Size = GoMap.len (GoMap.write s.cache v.Name ⟨v, s.currentId⟩) + 1
      rw [hmod, GoMap.len_write_of_read_none _ _ _ hnone, hc]
    · intro n e hr
      simp only at hr ⊢
      rw [hmod]
      by_cases hn : v.Name = n
      · subst hn
        rw [GoMap.read_write_self] at hr
        cases hr
        exact ⟨by simp only; omega, by simp only; omega, GoMap.read_write_self _ _ _, rfl⟩
      · rw [GoMap.read_write_ne _ _ hn] at hr
        obtain ⟨h1, h2, h3, h4⟩ := h.fwd n e hr
        refine ⟨h1, by omega, ?_, h4⟩
        rw [GoMap.read_write_ne _ _ (by omega)]
        exact h3
    · intro i n hr
      simp only at hr ⊢
      by_cases hi : s.currentId = i
      · subst hi
        rw [GoMap.read_write_self] at hr
        cases hr
        exact ⟨_, GoMap.read_write_self _ _ _, rfl⟩
      · rw [GoMap.read_write_ne _ _ hi] at hr
        obtain ⟨e, he, hei⟩ := h.bwd i n hr
        refine ⟨e, ?_, hei⟩
        have hne : v.Name ≠ n := by
          rintro rfl
          rw [hnone] at he
          cases he
        rw [GoMap.read_write_ne _ _ hne]
        exact he
    · exact GoMap.nodup_keys_write_of_read_none _ _ _ hnone h.nodupCache
    · exact GoMap.nodup_keys_write_of_read_none _ _ _ hmnone h.nodupCacheMap
    · simp only [GoMap.len_write_of_read_none _ _ _ hnone,
        GoMap.len_write_of_read_none _ _ _ hmnone, h.sameLen]

/-- A whole walk keeps the invariant, under the same proviso. -/
theorem inv_LoadWalk {s : SnmpManager} (h : Inv s) (rs : List SnmpPDU)
    (hb : GoMap.len (LoadWalk s rs).cache < uint64Size - 1) : Inv (LoadWalk s rs) := by
  induction rs generalizing s with
  | nil => exact h
  | cons v rs ih =>
    rw [LoadWalk_cons] at hb ⊢
    exact ih (inv_loadWalkStep h v (lt_of_le_of_lt (len_cache_LoadWalk _ rs) hb)) hb

/-- Every reachable state whose cache is below the counter's range satisfies
the invariant. -/
theorem reachable_inv {s : SnmpManager} (h : Reachable s)
    (hb : GoMap.len s.cache < uint64Size - 1) : Inv s := by
  induction h with
  | init => exact inv_initial
  | walk rs _ ih =>
    exact inv_LoadWalk (ih (lt_of_le_of_lt (len_cache_LoadWalk _ rs) hb)) rs hb


/-! ## How a walk treats names it has and has not seen -/

/-- A cached entry survives one turn of the loop unchanged. -/
theorem read_cache_loadWalkStep_of_some {s : SnmpManager} (h : Inv s) (v : SnmpPDU)
    {n : String} {e : SnmpCacheEntry} (hr : GoMap.read s.cache n = some e) :
    GoMap.read (loadWalkStep s v).cache n = some e := by
  by_cases hn : v.Name = n
  · subst hn
    rw [loadWalkStep_of_pos ((cacheAt_pos_iff h v.Name).2 ⟨e, hr⟩)]
    exact hr
  · rw [read_cache_loadWalkStep_of_ne s v hn]
    exact hr

/-- A cached entry survives a whole walk unchanged. -/
theorem read_cache_LoadWalk_of_some {s : SnmpManager} (h : Inv s) (rs : List SnmpPDU)
    (hb : GoMap.len (LoadWalk s rs).cache < uint64Size - 1)
    {n : String} {e : SnmpCacheEntry} (hr : GoMap.read s.cache n = some e) :
    GoMap.read (LoadWalk s rs).cache n = some e := by
  induction rs generalizing s with
  | nil => exact hr
  | cons v rs ih =>
    rw [LoadWalk_cons] at hb ⊢
    exact ih (inv_loadWalkStep h v (lt_of_le_of_lt (len_cache_LoadWalk _ rs) hb)) hb
      (read_cache_loadWalkStep_of_some h v hr)

/-- After its turn of the loop a result's name is cached. -/
theorem read_cache_loadWalkStep_self {s : SnmpManager} (h : Inv s) (v : SnmpPDU) :
    ∃ e, GoMap.read (loadWalkStep s v).cache v.Name = some e := by
  by_cases hp : 0 < (s.cacheAt v.Name).inode
  · rw [loadWalkStep_of_pos hp]
    exact (cacheAt_pos_iff h v.Name).1 hp
  · rw [loadWalkStep_of_not_pos hp]
    exact ⟨_, GoMap.read_write_self _ _ _⟩

/-- After a walk every name of the walk is cached. -/
theorem read_cache_LoadWalk_of_mem {s : SnmpManager} (h : Inv s) (rs : List SnmpPDU)
    (hb : GoMap.len (LoadWalk s rs).cache < uint64Size - 1) {v : SnmpPDU} (hv : v ∈ rs) :
    ∃ e, GoMap.read (LoadWalk s rs).cache v.Name = some e := by
  induction rs generalizing s with
  | nil => cases hv
  | cons u rs ih =>
    rw [LoadWalk_cons] at hb ⊢
    have hstep := inv_loadWalkStep h u (lt_of_le_of_lt (len_cache_LoadWalk _ rs) hb)
    rcases List.mem_cons.1 hv with rfl | hmem
    · obtain ⟨e, he⟩ := read_cache_loadWalkStep_self h v
      exact ⟨e, read_cache_LoadWalk_of_some hstep rs hb he⟩
    · exact ih hstep hb hmem

/-- A walk over names that all pass the loop's test leaves the state as it is. -/
theorem LoadWalk_eq_self_of_pos (s : SnmpManager) (rs : List SnmpPDU)
    (h : ∀ v ∈ rs, 0 < (s.cacheAt v.Name).inode) : LoadWalk s rs = s := by
  induction rs with
  | nil => rfl
  | cons v rs ih =>
    rw [LoadWalk_cons, loadWalkStep_of_pos (h v (List.mem_cons_self _ _))]
    exact ih (fun u hu => h u (List.mem_cons_of_mem _ hu))

/-- The entry a walk stores for a new name is built from the name's first
occurrence, at the counter value the loop had reached there. -/
theorem read_cache_LoadWalk_first {s : SnmpManager} (h : Inv s)
    (pre post : List SnmpPDU) (v : SnmpPDU)
    (hb : GoMap.len (LoadWalk s (pre ++ v :: post)).cache < uint64Size - 1)
    (hnew : GoMap.read s.cache v.Name = none) (hpre : ∀ u ∈ pre, u.Name ≠ v.Name) :
    GoMap.read (LoadWalk s (pre ++ v :: post)).cache v.Name
      = some ⟨v, (LoadWalk s pre).currentId⟩ := by
  rw [LoadWalk_append, LoadWalk_cons] at hb ⊢
  have hb₁ := lt_of_le_of_lt (len_cache_LoadWalk _ post) hb
  have hb₀ := lt_of_le_of_lt (len_cache_loadWalkStep _ v) hb₁
  have hpreInv := inv_LoadWalk h pre hb₀
  have hstepInv := inv_loadWalkStep hpreInv v hb₁
  have hnone : GoMap.read (LoadWalk s pre).cache v.Name = none := by
    rw [read_cache_LoadWalk_of_not_mem s pre hpre]
    exact hnew
  have hp : ¬ 0 < ((LoadWalk s pre).cacheAt v.Name).inode := by
    rw [cacheAt_pos_iff hpreInv]
    simp [hnone]
  apply read_cache_LoadWalk_of_some hstepInv post hb
  rw [loadWalkStep_of_not_pos hp]
  exact GoMap.read_write_self _ _ _

/-- A result whose name is cached, or came earlier in the walk, leaves the
state (the counter included) as the loop found it. -/
theorem loadWalkStep_eq_self_of_seen {s : SnmpManager} (h : Inv s)
    (pre : List SnmpPDU) (v : SnmpPDU)
    (hb : GoMap.len (LoadWalk s pre).cache < uint64Size - 1)
    (hseen : v.Name ∈ GoMap.keys s.cache ∨ ∃ u ∈ pre, u.Name = v.Name) :
    loadWalkStep (LoadWalk s pre) v = LoadWalk s pre := by
  have hpreInv := inv_LoadWalk h pre hb
  apply loadWalkStep_of_pos
  rw [cacheAt_pos_iff hpreInv]
  rcases hseen with hk | ⟨u, hu, hname⟩
  · obtain ⟨e, he⟩ := (GoMap.mem_keys_iff _ _).1 hk
    exact ⟨e, read_cache_LoadWalk_of_some h pre hb he⟩
  · rw [← hname]
    exact read_cache_LoadWalk_of_mem h pre hb hu


/-! ## The name/inode bijection -/

/-- Under the invariant the inode of a cached name is indexed back to it. -/
theorem read_cacheMap_cacheAt {s : SnmpManager} (h : Inv s) {n : String}
    (hn : n ∈ GoMap.keys s.cache) : GoMap.read s.cacheMap (s.cacheAt n).inode = some n := by
  obtain ⟨e, he⟩ := (GoMap.mem_keys_iff _ _).1 hn
  have hat : s.cacheAt n = e := GoMap.index_of_read_some he
  rw [hat]
  exact (h.fwd n e he).2.2.1

/-- C1. Round trip name -> inode -> name: in every state reachable from the
initial one by `LoadWalk` calls over arbitrary result lists, the cache holding
fewer than `2 ^ 64 - 1` names (so that the `uint64` counter has not wrapped),
every name `n` present in `cache` has `cacheMap[cache[n].inode] = n`, the
inode being a key of `cacheMap`. -/
theorem name_inode_name_roundtrip (s : SnmpManager) (hs : Reachable s)
    (hb : GoMap.len s.cache < uint64Size - 1) (n : String) (hn : n ∈ GoMap.keys s.cache) :
    GoMap.read s.cacheMap (s.cacheAt n).inode = some n ∧
      s.cacheMapAt (s.cacheAt n).inode = n :=
  have hmap := read_cacheMap_cacheAt (reachable_inv hs hb) hn
  ⟨hmap, GoMap.index_of_read_some hmap⟩

/-- C1 at the state after two walks, for a name both walks deliver. -/
theorem name_inode_name_roundtrip_witness :
    ".1.3.6.1.2.1.1.3.0" ∈ GoMap.keys (LoadWalk (LoadWalk initial sampleWalk) sampleRewalk).cache ∧
    GoMap.read (LoadWalk (LoadWalk initial sampleWalk) sampleRewalk).cacheMap
        ((LoadWalk (LoadWalk initial sampleWalk) sampleRewalk).cacheAt ".1.3.6.1.2.1.1.3.0").inode
      = some ".1.3.6.1.2.1.1.3.0" :=
  ⟨by decide,
   (name_inode_name_roundtrip _ (Reachable.walk sampleRewalk (Reachable.walk sampleWalk Reachable.init))
      (by decide) ".1.3.6.1.2.1.1.3.0" (by decide)).1⟩

/-- C2. Reverse direction of the bijection: in every reachable state (cache
below `2 ^ 64 - 1` names), every inode `i` present in `cacheMap` names a
cached entry, `cacheMap[i]` is a key of `cache` and `cache[cacheMap[i]].inode
= i`; both maps have distinct keys and the same number of entries. -/
theorem inode_name_inode_roundtrip (s : SnmpManager) (hs : Reachable s)
    (hb : GoMap.len s.cache < uint64Size - 1) :
    (∀ i ∈ GoMap.keys s.cacheMap,
        s.cacheMapAt i ∈ GoMap.keys s.cache ∧ (s.cacheAt (s.cacheMapAt i)).inode = i) ∧
      (GoMap.keys s.cache).Nodup ∧ (GoMap.keys s.cacheMap).Nodup ∧
      GoMap.len s.cacheMap = GoMap.len s.cache := by
  have hinv := reachable_inv hs hb
  refine ⟨?_, hinv.nodupCache, hinv.nodupCacheMap, hinv.sameLen⟩
  intro i hi
  obtain ⟨n, hn⟩ := (GoMap.mem_keys_iff _ _).1 hi
  obtain ⟨e, he, hei⟩ := hinv.bwd i n hn
  have hmapAt : s.cacheMapAt i = n := GoMap.index_of_read_some hn
  have hat : s.cacheAt n = e := GoMap.index_of_read_some he
  rw [hmapAt, hat]
  exact ⟨(GoMap.mem_keys_iff _ _).2 ⟨e, he⟩, hei⟩

/-- C2 at the state after two walks: four names, four inodes. -/
theorem inode_name_inode_roundtrip_witness :
    GoMap.len (LoadWalk (LoadWalk initial sampleWalk) sampleRewalk).cache < uint64Size - 1 ∧
    GoMap.len (LoadWalk (LoadWalk initial sampleWalk) sampleRewalk).cacheMap = 4 ∧
    GoMap.len (LoadWalk (LoadWalk initial sampleWalk) sampleRewalk).cache = 4 :=
  ⟨by decide,
   by decide,
   ((inode_name_inode_roundtrip _
      (Reachable.walk sampleRewalk (Reachable.walk sampleWalk Reachable.init))
      (by decide)).2.2.2).symm.trans (by decide)⟩

/-- C3. Uniqueness: in every reachable state (cache below `2 ^ 64 - 1`
names) every cached entry has an inode greater than 0, and two distinct
cached names have distinct inodes. -/
theorem inode_unique_pos (s : SnmpManager) (hs : Reachable s)
    (hb : GoMap.len s.cache < uint64Size - 1) :
    (∀ n ∈ GoMap.keys s.cache, 0 < (s.cacheAt n).inode) ∧
      (∀ n₁ ∈ GoMap.keys s.cache, ∀ n₂ ∈ GoMap.keys s.cache,
        n₁ ≠ n₂ → (s.cacheAt n₁).inode ≠ (s.cacheAt n₂).inode) := by
  have hinv := reachable_inv hs hb
  constructor
  · intro n hn
    exact (cacheAt_pos_iff hinv n).2 ((GoMap.mem_keys_iff _ _).1 hn)
  · intro n₁ h₁ n₂ h₂ hne heq
    have r₁ := read_cacheMap_cacheAt hinv h₁
    have r₂ := read_cacheMap_cacheAt hinv h₂
    rw [heq, r₂] at r₁
    exact hne (Option.some.inj r₁).symm

/-- C3 at the state after one walk: the first name has a positive inode. -/
theorem inode_unique_pos_witness :
    GoMap.len (LoadWalk initial sampleWalk).cache < uint64Size - 1 ∧
    0 < ((LoadWalk initial sampleWalk).cacheAt ".1.3.6.1.2.1.1.1.0").inode :=
  ⟨by decide,
   (inode_unique_pos _ (Reachable.walk sampleWalk Reachable.init) (by decide)).1
     ".1.3.6.1.2.1.1.1.0" (by decide)⟩


/-! ## Walking again -/

/-- C4. Idempotence of the walk: for every reachable state `s` and result
list `rs` (the cache staying below `2 ^ 64 - 1` names), running the loop of
`LoadWalk` over `rs` a second time yields exactly the state the first run
left: the same `cache`, `cacheMap` and `currentId`. -/
theorem LoadWalk_idempotent (s : SnmpManager) (rs : List SnmpPDU) (hs : Reachable s)
    (hb : GoMap.len (LoadWalk s rs).cache < uint64Size - 1) :
    LoadWalk (LoadWalk s rs) rs = LoadWalk s rs := by
  have hinv := reachable_inv hs (lt_of_le_of_lt (len_cache_LoadWalk s rs) hb)
  have hinv' := inv_LoadWalk hinv rs hb
  apply LoadWalk_eq_self_of_pos
  intro v hv
  rw [cacheAt_pos_iff hinv']
  exact read_cache_LoadWalk_of_mem hinv rs hb hv

/-- C4 on the sample walk, from the initial state. -/
theorem LoadWalk_idempotent_witness :
    GoMap.len (LoadWalk initial sampleWalk).cache < uint64Size - 1 ∧
    LoadWalk (LoadWalk initial sampleWalk) sampleWalk = LoadWalk initial sampleWalk :=
  ⟨by decide, LoadWalk_idempotent initial sampleWalk Reachable.init (by decide)⟩

/-- C5. Known names are left untouched: for every reachable state `s` and
result list `rs` (the cache staying below `2 ^ 64 - 1` names), (1) every entry
cached in `s` is the same entry after the walk; (2) a name new to `s` gets the
entry built from its first occurrence in `rs`, with the counter value the loop
had reached there; (3) a result whose name is cached in `s` or came earlier in
`rs` leaves the whole state, `currentId` included, as the loop found it. -/
theorem LoadWalk_keeps_known (s : SnmpManager) (rs : List SnmpPDU) (hs : Reachable s)
    (hb : GoMap.len (LoadWalk s rs).cache < uint64Size - 1) :
    (∀ n e, GoMap.read s.cache n = some e → GoMap.read (LoadWalk s rs).cache n = some e) ∧
    (∀ pre v post, rs = pre ++ v :: post → v.Name ∉ GoMap.keys s.cache →
      (∀ u ∈ pre, u.Name ≠ v.Name) →
      GoMap.read (LoadWalk s rs).cache v.Name = some ⟨v, (LoadWalk s pre).currentId⟩) ∧
    (∀ pre v post, rs = pre ++ v :: post →
      (v.Name ∈ GoMap.keys s.cache ∨ ∃ u ∈ pre, u.Name = v.Name) →
      loadWalkStep (LoadWalk s pre) v = LoadWalk s pre) := by
  have hinv := reachable_inv hs (lt_of_le_of_lt (len_cache_LoadWalk s rs) hb)
  refine ⟨?_, ?_, ?_⟩
  · intro n e he
    exact read_cache_LoadWalk_of_some hinv rs hb he
  · intro pre v post hrs hnew hpre
    subst hrs
    exact read_cache_LoadWalk_first hinv pre post v hb ((GoMap.not_mem_keys_iff _ _).1 hnew) hpre
  · intro pre v post hrs hseen
    subst hrs
    rw [LoadWalk_append] at hb
    exact loadWalkStep_eq_self_of_seen hinv pre v
      (lt_of_le_of_lt (len_cache_LoadWalk _ (v :: post)) hb) hseen

/-- C5 on a second walk: the duration-tick entry of the first walk keeps its
value and its inode 2 although the second walk delivers the name again. -/
theorem LoadWalk_keeps_known_witness :
    GoMap.len (LoadWalk (LoadWalk initial sampleWalk) sampleRewalk).cache < uint64Size - 1 ∧
    GoMap.read (LoadWalk (LoadWalk initial sampleWalk) sampleRewalk).cache ".1.3.6.1.2.1.1.3.0"
      = some ⟨⟨".1.3.6.1.2.1.1.3.0", TimeTicks, Value.int 12345⟩, 2⟩ :=
  ⟨by decide,
   (LoadWalk_keeps_known (LoadWalk initial sampleWalk) sampleRewalk
      (Reachable.walk sampleWalk Reachable.init) (by decide)).1 _ _ (by decide)⟩

/-! ## Directory lookups -/

/-- C6. Absence: after `LoadWalk` from the initial state over any result list
`rs`, `Dir.Lookup` of a name that is no `Name` of `rs` returns no `File` and
the error `fuse.ENOENT`. -/
theorem Lookup_absent (rs : List SnmpPDU) (name : String)
    (hname : name ∉ rs.map SnmpPDU.Name) :
    Dir.Lookup (LoadWalk initial rs) name = (none, some fuse.Errno.ENOENT) := by
  have hne : ∀ v ∈ rs, v.Name ≠ name := by
    intro v hv heq
    exact hname (List.mem_map.2 ⟨v, hv, heq⟩)
  have hread : GoMap.read (LoadWalk initial rs).cache name = none := by
    rw [read_cache_LoadWalk_of_not_mem initial rs hne]
    rfl
  have hat : (LoadWalk initial rs).cacheAt name = zeroEntry := GoMap.index_of_read_none hread
  simp [Dir.Lookup, hat, zeroEntry]

/-- C6 on the sample walk, for a name that was never walked. -/
theorem Lookup_absent_witness :
    ".9.9.9" ∉ sampleWalk.map SnmpPDU.Name ∧
    Dir.Lookup (LoadWalk initial sampleWalk) ".9.9.9" = (none, some fuse.Errno.ENOENT) :=
  ⟨by decide, Lookup_absent sampleWalk ".9.9.9" (by decide)⟩

/-- C7. Lookup hit: after `LoadWalk` from the initial state over any result
list `rs` (the cache staying below `2 ^ 64 - 1` names), every name occurring in
`rs` is cached, `Dir.Lookup` of it returns a nil error and the `File` carrying
`cache[name].inode`, an inode greater than 0 that `cacheMap` resolves back to
the name. -/
theorem Lookup_hit (rs : List SnmpPDU) (name : String)
    (hb : GoMap.len (LoadWalk initial rs).cache < uint64Size - 1)
    (hname : name ∈ rs.map SnmpPDU.Name) :
    name ∈ GoMap.keys (LoadWalk initial rs).cache ∧
    Dir.Lookup (LoadWalk initial rs) name
      = (some ⟨((LoadWalk initial rs).cacheAt name).inode⟩, none) ∧
    0 < ((LoadWalk initial rs).cacheAt name).inode ∧
    GoMap.read (LoadWalk initial rs).cacheMap ((LoadWalk initial rs).cacheAt name).inode
      = some name := by
  have hinv := inv_LoadWalk inv_initial rs hb
  obtain ⟨v, hv, rfl⟩ := List.mem_map.1 hname
  have hcached := read_cache_LoadWalk_of_mem inv_initial rs hb hv
  have hkey := (GoMap.mem_keys_iff _ _).2 hcached
  have hpos := (cacheAt_pos_iff hinv v.Name).2 hcached
  refine ⟨hkey, ?_, hpos, read_cacheMap_cacheAt hinv hkey⟩
  simp [Dir.Lookup, hpos]

/-- C7 on the sample walk: the duration-tick name is found under inode 2. -/
theorem Lookup_hit_witness :
    GoMap.len (LoadWalk initial sampleWalk).cache < uint64Size - 1 ∧
    ".1.3.6.1.2.1.1.3.0" ∈ sampleWalk.map SnmpPDU.Name ∧
    Dir.Lookup (LoadWalk initial sampleWalk) ".1.3.6.1.2.1.1.3.0" = (some ⟨2⟩, none) :=
  ⟨by decide, by decide,
   (Lookup_hit sampleWalk ".1.3.6.1.2.1.1.3.0" (by decide) (by decide)).2.1.trans (by decide)⟩


/-! ## Reading files -/

theorem bytesOf_append (a b : String) : bytesOf (a ++ b) = bytesOf a ++ bytesOf b := by
  simp [bytesOf, String.data_append, List.flatMap_append]

/-- What `File.ReadAll` returns when the entry it ends up with has a type
without a renderer. -/
theorem ReadAll_of_no_renderer (typeString : Asn1BER → String) (s : SnmpManager) (f : File)
    (h₁ : (s.cacheAt (s.cacheMapAt f.Inode)).pdu.Type_ ≠ OctetString)
    (h₂ : (s.cacheAt (s.cacheMapAt f.Inode)).pdu.Type_ ≠ TimeTicks)
    (h₃ : (s.cacheAt (s.cacheMapAt f.Inode)).pdu.Type_ ≠ ObjectIdentifier) :
    File.ReadAll typeString s f
      = some (bytesOf ("error unknown type: "
          ++ typeString (s.cacheAt (s.cacheMapAt f.Inode)).pdu.Type_), none) := by
  simp [File.ReadAll, h₁, h₂, h₃]

/-- Whatever `File.ReadAll` returns, the error it returns is nil. -/
theorem ReadAll_error_nil (typeString : Asn1BER → String) (s : SnmpManager) (f : File)
    (r : List UInt8 × Option fuse.Errno) (hr : File.ReadAll typeString s f = some r) :
    r.2 = none := by
  unfold File.ReadAll at hr
  simp only at hr
  split_ifs at hr
  · split at hr
    · cases hr; rfl
    · cases hr
  · cases hr; rfl
  · cases hr; rfl
  · cases hr; rfl

/-- What `File.ReadAll` returns for an inode that is no key of `cacheMap`,
the empty name not being cached: the read ends up with the zero PDU. -/
theorem ReadAll_of_unknown_inode (typeString : Asn1BER → String) (s : SnmpManager) (i : Nat)
    (hi : i ∉ GoMap.keys s.cacheMap) (hempty : "" ∉ GoMap.keys s.cache) :
    File.ReadAll typeString s ⟨i⟩
      = some (bytesOf ("error unknown type: " ++ typeString EndOfContents), none) := by
  have hoid : s.cacheMapAt i = "" :=
    GoMap.index_of_read_none ((GoMap.not_mem_keys_iff _ _).1 hi)
  have hentry : s.cacheAt "" = zeroEntry :=
    GoMap.index_of_read_none ((GoMap.not_mem_keys_iff _ _).1 hempty)
  have hty : (s.cacheAt (s.cacheMapAt (File.mk i).Inode)).pdu.Type_ = EndOfContents := by
    simp [hoid, hentry, zeroEntry, zeroPDU]
  rw [ReadAll_of_no_renderer typeString s ⟨i⟩ (by rw [hty]; decide) (by rw [hty]; decide)
    (by rw [hty]; decide), hty]

/-- Under the invariant every file `Dir.Lookup` returns carries an inode that
is a key of `cacheMap`. -/
theorem Lookup_inode_mem_keys {s : SnmpManager} (h : Inv s) {name : String} {f : File}
    (hf : Dir.Lookup s name = (some f, none)) : f.Inode ∈ GoMap.keys s.cacheMap := by
  by_cases hpos : 0 < (s.cacheAt name).inode
  · obtain ⟨e, he⟩ := (cacheAt_pos_iff h name).1 hpos
    have hat : s.cacheAt name = e := GoMap.index_of_read_some he
    simp only [Dir.Lookup, gt_iff_lt, hpos, if_true, Prod.mk.injEq, Option.some.injEq,
      and_true] at hf
    rw [← hf, hat]
    exact (GoMap.mem_keys_iff _ _).2 ⟨name, (h.fwd name e he).2.2.1⟩
  · simp [Dir.Lookup, hpos] at hf

/-- C8 as stated fails.  After the sample walk the inodes 1 to 3 are assigned
and 9 is no key of `cacheMap`; whatever the library's `Asn1BER.String`
prints, `File.ReadAll` on `File{Inode: 9}` does not return `fuse.ENOENT`: it
returns a nil error and the text `error unknown type: ` followed by the
string of the zero type tag. -/
theorem ReadAll_unknown_inode_no_error :
    9 ∉ GoMap.keys (LoadWalk initial sampleWalk).cacheMap ∧
    (¬ ∃ (typeString : Asn1BER → String) (payload : List UInt8),
        File.ReadAll typeString (LoadWalk initial sampleWalk) ⟨9⟩
          = some (payload, some fuse.Errno.ENOENT)) ∧
    (∀ typeString : Asn1BER → String,
        File.ReadAll typeString (LoadWalk initial sampleWalk) ⟨9⟩
          = some (bytesOf ("error unknown type: " ++ typeString EndOfContents), none)) := by
  refine ⟨by decide, ?_, fun typeString =>
    ReadAll_of_unknown_inode typeString _ 9 (by decide) (by decide)⟩
  rintro ⟨typeString, payload, hread⟩
  have := ReadAll_error_nil typeString _ _ _ hread
  cases this

/-- C8 as amended. For every state and every inode `i` that is no key of
`cacheMap`, the error `File.ReadAll` returns for `File{Inode: i}` is nil,
never `fuse.ENOENT`; when the empty name is not cached, the read returns the
payload `error unknown type: ` followed by the string of the zero type tag;
and in a reachable state (cache below `2 ^ 64 - 1` names) no file that
`Dir.Lookup` returns carries the inode `i`. -/
theorem ReadAll_unknown_inode (typeString : Asn1BER → String) (s : SnmpManager) (i : Nat)
    (hi : i ∉ GoMap.keys s.cacheMap) :
    (∀ r, File.ReadAll typeString s ⟨i⟩ = some r → r.2 = none) ∧
    ("" ∉ GoMap.keys s.cache →
      File.ReadAll typeString s ⟨i⟩
        = some (bytesOf ("error unknown type: " ++ typeString EndOfContents), none)) ∧
    (Reachable s → GoMap.len s.cache < uint64Size - 1 →
      ∀ name f, Dir.Lookup s name = (some f, none) → f.Inode ≠ i) := by
  refine ⟨fun r hr => ReadAll_error_nil typeString s ⟨i⟩ r hr,
    fun hempty => ReadAll_of_unknown_inode typeString s i hi hempty, ?_⟩
  intro hs hb name f hf heq
  exact hi (heq ▸ Lookup_inode_mem_keys (reachable_inv hs hb) hf)

/-- C8 as amended, after the sample walk: inode 7 is no key of `cacheMap`,
the read of it returns a nil error and the diagnostic text, and the file
`Dir.Lookup` returns for a walked name carries the inode 2, not 7. -/
theorem ReadAll_unknown_inode_witness :
    7 ∉ GoMap.keys (LoadWalk initial sampleWalk).cacheMap ∧
    (∀ typeString : Asn1BER → String,
      File.ReadAll typeString (LoadWalk initial sampleWalk) ⟨7⟩
        = some (bytesOf ("error unknown type: " ++ typeString EndOfContents), none)) ∧
    Dir.Lookup (LoadWalk initial sampleWalk) ".1.3.6.1.2.1.1.3.0" = (some ⟨2⟩, none) ∧
    (2 : Nat) ≠ 7 :=
  ⟨by decide,
   fun typeString =>
     (ReadAll_unknown_inode typeString (LoadWalk initial sampleWalk) 7 (by decide)).2.1
       (by decide),
   by decide,
   (ReadAll_unknown_inode (fun _ => "") (LoadWalk initial sampleWalk) 7 (by decide)).2.2
     (Reachable.walk sampleWalk Reachable.init) (by decide) ".1.3.6.1.2.1.1.3.0" ⟨2⟩
     (by decide)⟩

/-- Under the invariant, `File.ReadAll` on the inode of a cached entry whose
type has no renderer returns the fixed text and the type's string. -/
theorem ReadAll_cached_no_renderer (typeString : Asn1BER → String) {s : SnmpManager}
    (h : Inv s) {n : String} {e : SnmpCacheEntry} (he : GoMap.read s.cache n = some e)
    (h₁ : e.pdu.Type_ ≠ OctetString) (h₂ : e.pdu.Type_ ≠ TimeTicks)
    (h₃ : e.pdu.Type_ ≠ ObjectIdentifier) :
    File.ReadAll typeString s ⟨e.inode⟩
      = some (bytesOf ("error unknown type: " ++ typeString e.pdu.Type_), none) := by
  have hoid : s.cacheMapAt e.inode = n := GoMap.index_of_read_some (h.fwd n e he).2.2.1
  have hentry : s.cacheAt n = e := GoMap.index_of_read_some he
  have hty : (s.cacheAt (s.cacheMapAt (File.mk e.inode).Inode)).pdu.Type_ = e.pdu.Type_ := by
    simp [hoid, hentry]
  rw [ReadAll_of_no_renderer typeString s ⟨e.inode⟩ (by rw [hty]; exact h₁)
    (by rw [hty]; exact h₂) (by rw [hty]; exact h₃), hty]

/-- C9 as stated fails.  A walk of the one result `{name, Integer, 72}` caches
an entry of a type without a renderer under inode 1; whatever the library's
`Asn1BER.String` prints, the payload `File.ReadAll` returns for it cannot
contain the name for every `name`.  With `Integer` printed as `Integer` and
the name `.1.3.6.1.2.1.1.7.0`, the payload is `error unknown type: Integer`,
which contains neither the name nor the value 72. -/
theorem ReadAll_no_renderer_omits_name :
    (¬ ∃ typeString : Asn1BER → String, ∀ name : String, ∃ payload : List UInt8,
        File.ReadAll typeString (LoadWalk initial [⟨name, Integer, Value.int 72⟩]) ⟨1⟩
          = some (payload, none) ∧ bytesOf name <:+: payload) ∧
    File.ReadAll (fun _ => "Integer")
        (LoadWalk initial [⟨".1.3.6.1.2.1.1.7.0", Integer, Value.int 72⟩]) ⟨1⟩
      = some (bytesOf "error unknown type: Integer", none) ∧
    ¬ bytesOf ".1.3.6.1.2.1.1.7.0" <:+: bytesOf "error unknown type: Integer" ∧
    ¬ bytesOf "72" <:+: bytesOf "error unknown type: Integer" := by
  refine ⟨?_, by decide, by decide, by decide⟩
  rintro ⟨typeString, hall⟩
  obtain ⟨payload, hread, hinfix⟩ := hall ("error unknown type: " ++ typeString Integer ++ "x")
  have hinv : Inv (LoadWalk initial
      [⟨"error unknown type: " ++ typeString Integer ++ "x", Integer, Value.int 72⟩]) :=
    inv_LoadWalk inv_initial _ (by
      simp [LoadWalk, loadWalkStep, initial, SnmpManager.cacheAt, GoMap.index, GoMap.read,
        GoMap.write, GoMap.len, zeroEntry, uint64Size_eq])
  have hcached : GoMap.read (LoadWalk initial
      [⟨"error unknown type: " ++ typeString Integer ++ "x", Integer, Value.int 72⟩]).cache
      ("error unknown type: " ++ typeString Integer ++ "x")
      = some ⟨⟨"error unknown type: " ++ typeString Integer ++ "x", Integer, Value.int 72⟩, 1⟩ := by
    simp [LoadWalk, loadWalkStep, initial, SnmpManager.cacheAt, GoMap.index, GoMap.read,
      GoMap.write, zeroEntry]
  have hpayload := ReadAll_cached_no_renderer typeString hinv hcached
    (show Integer ≠ OctetString by decide) (show Integer ≠ TimeTicks by decide)
    (show Integer ≠ ObjectIdentifier by decide)
  rw [hpayload] at hread
  have hp : payload = bytesOf ("error unknown type: " ++ typeString Integer) := by
    simpa using hread.symm
  subst hp
  have hlen := hinfix.length_le
  rw [bytesOf_append ("error unknown type: " ++ typeString Integer) "x", List.length_append] at hlen
  have hx : (bytesOf "x").length = 1 := by decide
  omega

/-- C9 as amended. In every reachable state (cache below `2 ^ 64 - 1` names),
for every cached entry whose type is none of `OctetString`, `TimeTicks`,
`ObjectIdentifier`, `File.ReadAll` on its inode returns a nil error and a
payload that contains the entry's type tag: the payload is exactly the text
`error unknown type: ` followed by the string of the tag, which is the end
of the payload. -/
theorem ReadAll_no_renderer (typeString : Asn1BER → String) (s : SnmpManager)
    (hs : Reachable s) (hb : GoMap.len s.cache < uint64Size - 1)
    (n : String) (e : SnmpCacheEntry) (he : GoMap.read s.cache n = some e)
    (h₁ : e.pdu.Type_ ≠ OctetString) (h₂ : e.pdu.Type_ ≠ TimeTicks)
    (h₃ : e.pdu.Type_ ≠ ObjectIdentifier) :
    File.ReadAll typeString s ⟨e.inode⟩
        = some (bytesOf ("error unknown type: " ++ typeString e.pdu.Type_), none) ∧
      bytesOf (typeString e.pdu.Type_)
        <:+ bytesOf ("error unknown type: " ++ typeString e.pdu.Type_) :=
  ⟨ReadAll_cached_no_renderer typeString (reachable_inv hs hb) he h₁ h₂ h₃,
   ⟨bytesOf "error unknown type: ", (bytesOf_append _ _).symm⟩⟩

/-- C9 as amended, on the `Integer` entry of the sample walk (inode 3):
whatever the library prints for the tag, the payload is the fixed text
followed by it. -/
theorem ReadAll_no_renderer_witness :
    GoMap.len (LoadWalk initial sampleWalk).cache < uint64Size - 1 ∧
    GoMap.read (LoadWalk initial sampleWalk).cache ".1.3.6.1.2.1.1.7.0"
      = some ⟨⟨".1.3.6.1.2.1.1.7.0", Integer, Value.int 72⟩, 3⟩ ∧
    (∀ typeString : Asn1BER → String,
      File.ReadAll typeString (LoadWalk initial sampleWalk) ⟨3⟩
        = some (bytesOf ("error unknown type: " ++ typeString Integer), none)) :=
  ⟨by decide, by decide,
   fun typeString =>
     (ReadAll_no_renderer typeString (LoadWalk initial sampleWalk)
        (Reachable.walk sampleWalk Reachable.init) (by decide) ".1.3.6.1.2.1.1.7.0"
        ⟨⟨".1.3.6.1.2.1.1.7.0", Integer, Value.int 72⟩, 3⟩ (by decide)
        (by decide) (by decide) (by decide)).1⟩

/-- C10 (what the code does instead). `File.Attr` reports the fixed size 100
for every file, whatever `File.ReadAll` returns: the text entry of the sample
walk (inode 1) reads as the 12 bytes of `test-system` and a newline. -/
theorem Attr_size_fixed (typeString : Asn1BER → String) (f : File) (a : fuse.Attr) :
    (File.Attr f a).1.Size = 100 ∧
    File.ReadAll typeString (LoadWalk initial sampleWalk) ⟨1⟩
      = some (bytesOf "test-system\n", none) ∧
    (bytesOf "test-system\n").length = 12 := by
  refine ⟨rfl, ?_, by decide⟩
  simp [File.ReadAll, LoadWalk, sampleWalk, loadWalkStep, initial, SnmpManager.cacheAt,
    SnmpManager.cacheMapAt, GoMap.index, GoMap.read, GoMap.write, zeroEntry, zeroPDU,
    OctetString, TimeTicks, Integer, EndOfContents, uint64Size_eq]
  decide

/-! ## Reading rendered values -/

/-- Under the invariant, the entry `File.ReadAll` works on for the inode of a
cached entry is that entry. -/
theorem cacheAt_cacheMapAt_inode {s : SnmpManager} (h : Inv s) {n : String}
    {e : SnmpCacheEntry} (he : GoMap.read s.cache n = some e) :
    s.cacheAt (s.cacheMapAt e.inode) = e := by
  have hoid : s.cacheMapAt e.inode = n := GoMap.index_of_read_some (h.fwd n e he).2.2.1
  rw [hoid]
  exact GoMap.index_of_read_some he

/-- After a walk from the initial state, `Dir.Lookup` of a name finds the
entry built from the name's first occurrence, and `File.ReadAll` on the file
it returns works on the PDU of that occurrence. -/
theorem Lookup_first_occurrence (pre post : List SnmpPDU) (v : SnmpPDU)
    (hb : GoMap.len (LoadWalk initial (pre ++ v :: post)).cache < uint64Size - 1)
    (hpre : ∀ u ∈ pre, u.Name ≠ v.Name) :
    ∃ f : File,
      Dir.Lookup (LoadWalk initial (pre ++ v :: post)) v.Name = (some f, none) ∧
      ((LoadWalk initial (pre ++ v :: post)).cacheAt
        ((LoadWalk initial (pre ++ v :: post)).cacheMapAt f.Inode)).pdu = v := by
  have hinv := inv_LoadWalk inv_initial _ hb
  have hread := read_cache_LoadWalk_first inv_initial pre post v hb rfl hpre
  have hat : (LoadWalk initial (pre ++ v :: post)).cacheAt v.Name
      = ⟨v, (LoadWalk initial pre).currentId⟩ := GoMap.index_of_read_some hread
  have hpos := (cacheAt_pos_iff hinv v.Name).2 ⟨_, hread⟩
  refine ⟨⟨(LoadWalk initial pre).currentId⟩, ?_, ?_⟩
  · rw [hat] at hpos
    simp only [Dir.Lookup, hat, gt_iff_lt, hpos, if_true]
  · have := cacheAt_cacheMapAt_inode hinv hread
    simp only at this
    rw [this]

/-- C11 as stated fails.  A walk of the one result `{name, Counter32, 42}`
caches a counter under inode 1; whatever the library's `Asn1BER.String`
prints, `File.ReadAll` does not return the decimal `42` and a newline for it.
With `Counter32` printed as `Counter32` the payload is
`error unknown type: Counter32`. -/
theorem ReadAll_counter_not_decimal :
    (¬ ∃ typeString : Asn1BER → String,
        File.ReadAll typeString
            (LoadWalk initial [⟨".1.3.6.1.2.1.2.2.1.10.1", Counter32, Value.int 42⟩]) ⟨1⟩
          = some (bytesOf "42\n", none)) ∧
    File.ReadAll (fun _ => "Counter32")
        (LoadWalk initial [⟨".1.3.6.1.2.1.2.2.1.10.1", Counter32, Value.int 42⟩]) ⟨1⟩
      = some (bytesOf "error unknown type: Counter32", none) := by
  refine ⟨?_, by decide⟩
  rintro ⟨typeString, hread⟩
  have hinv : Inv (LoadWalk initial [⟨".1.3.6.1.2.1.2.2.1.10.1", Counter32, Value.int 42⟩]) :=
    inv_LoadWalk inv_initial _ (by decide)
  have hcached : GoMap.read
      (LoadWalk initial [⟨".1.3.6.1.2.1.2.2.1.10.1", Counter32, Value.int 42⟩]).cache
      ".1.3.6.1.2.1.2.2.1.10.1"
      = some ⟨⟨".1.3.6.1.2.1.2.2.1.10.1", Counter32, Value.int 42⟩, 1⟩ := by decide
  have hpayload := ReadAll_cached_no_renderer typeString hinv hcached
    (show Counter32 ≠ OctetString by decide) (show Counter32 ≠ TimeTicks by decide)
    (show Counter32 ≠ ObjectIdentifier by decide)
  rw [hpayload, bytesOf_append] at hread
  have hhead : bytesOf "error unknown type: "
      = 101 :: (bytesOf "error unknown type: ").tail := by decide
  have h42 : bytesOf "42\n" = [52, 50, 10] := by decide
  rw [hhead, h42] at hread
  simp at hread

/-- C11 as amended. In every reachable state (cache below `2 ^ 64 - 1` names),
for every cached entry whose type is `Counter32` or `Counter64`,
`File.ReadAll` on its inode returns a nil error and the payload
`error unknown type: ` followed by the string of the type tag; the counter's
value is not rendered. -/
theorem ReadAll_counter (typeString : Asn1BER → String) (s : SnmpManager)
    (hs : Reachable s) (hb : GoMap.len s.cache < uint64Size - 1)
    (n : String) (e : SnmpCacheEntry) (he : GoMap.read s.cache n = some e)
    (hty : e.pdu.Type_ = Counter32 ∨ e.pdu.Type_ = Counter64) :
    File.ReadAll typeString s ⟨e.inode⟩
      = some (bytesOf ("error unknown type: " ++ typeString e.pdu.Type_), none) := by
  apply ReadAll_cached_no_renderer typeString (reachable_inv hs hb) he
  · rcases hty with h | h <;> rw [h] <;> decide
  · rcases hty with h | h <;> rw [h] <;> decide
  · rcases hty with h | h <;> rw [h] <;> decide

/-- C11 as amended, on the 64-bit counter of the counter walk (inode 2). -/
theorem ReadAll_counter_witness :
    GoMap.len (LoadWalk initial counterWalk).cache < uint64Size - 1 ∧
    GoMap.read (LoadWalk initial counterWalk).cache ".1.3.6.1.2.1.31.1.1.1.6.1"
      = some ⟨⟨".1.3.6.1.2.1.31.1.1.1.6.1", Counter64, Value.uint64 5000000000⟩, 2⟩ ∧
    File.ReadAll (fun _ => "Counter64") (LoadWalk initial counterWalk) ⟨2⟩
      = some (bytesOf "error unknown type: Counter64", none) :=
  ⟨by decide, by decide,
   ReadAll_counter (fun _ => "Counter64") (LoadWalk initial counterWalk)
     (Reachable.walk counterWalk Reachable.init) (by decide) ".1.3.6.1.2.1.31.1.1.1.6.1"
     ⟨⟨".1.3.6.1.2.1.31.1.1.1.6.1", Counter64, Value.uint64 5000000000⟩, 2⟩ (by decide)
     (Or.inr rfl)⟩

/-- C12. End-to-end text read: after `LoadWalk` from the initial state over a
result list (cache below `2 ^ 64 - 1` names), for a name whose first
occurrence has type `OctetString` and a string value of the bytes `v` (any
bytes, text or not), `Dir.Lookup` returns a file with a nil error, and
`File.ReadAll` on that file returns a nil error and exactly the bytes `v`
followed by one newline byte. -/
theorem ReadAll_text (typeString : Asn1BER → String) (pre post : List SnmpPDU)
    (name : String) (v : List UInt8)
    (hb : GoMap.len (LoadWalk initial
      (pre ++ ⟨name, OctetString, Value.str v⟩ :: post)).cache < uint64Size - 1)
    (hpre : ∀ u ∈ pre, u.Name ≠ name) :
    ∃ f : File,
      Dir.Lookup (LoadWalk initial (pre ++ ⟨name, OctetString, Value.str v⟩ :: post)) name
        = (some f, none) ∧
      File.ReadAll typeString
          (LoadWalk initial (pre ++ ⟨name, OctetString, Value.str v⟩ :: post)) f
        = some (v ++ [10], none) := by
  obtain ⟨f, hlookup, hentry⟩ :=
    Lookup_first_occurrence pre post ⟨name, OctetString, Value.str v⟩ hb hpre
  refine ⟨f, hlookup, ?_⟩
  have hnl : bytesOf "\n" = [10] := by decide
  simp only [File.ReadAll, hentry, if_true, hnl]

/-- C12 on scenario A, where the one text entry reads as `test-system` and a
newline, and on a walk whose first result is a binary value: the bytes
`00 ff 80` read as `00 ff 80 0a`. -/
theorem ReadAll_text_witness :
    GoMap.len (LoadWalk initial scenarioA).cache < uint64Size - 1 ∧
    (∃ f : File,
      Dir.Lookup (LoadWalk initial scenarioA) ".1.3.6.1.2.1.1.1.0" = (some f, none) ∧
      File.ReadAll (fun _ => "") (LoadWalk initial scenarioA) f
        = some (bytesOf "test-system\n", none)) ∧
    (∃ f : File,
      Dir.Lookup (LoadWalk initial binaryWalk) ".1.3.6.1.2.1.2.2.1.6.1" = (some f, none) ∧
      File.ReadAll (fun _ => "") (LoadWalk initial binaryWalk) f
        = some ([0x00, 0xff, 0x80, 0x0a], none)) :=
  ⟨by decide,
   (ReadAll_text (fun _ => "") [] [] ".1.3.6.1.2.1.1.1.0" (bytesOf "test-system") (by decide)
      (by decide)).imp fun _ h => ⟨h.1, h.2.trans (by decide)⟩,
   ReadAll_text (fun _ => "") [] [⟨".1.3.6.1.2.1.1.1.0", OctetString, Value.str (bytesOf "x")⟩]
      ".1.3.6.1.2.1.2.2.1.6.1" [0x00, 0xff, 0x80] (by decide) (by decide)⟩

/-- C13. End-to-end duration-tick read: after `LoadWalk` from the initial
state over a result list (cache below `2 ^ 64 - 1` names), for a name whose
first occurrence has type `TimeTicks` and the integer value `v`, `Dir.Lookup`
returns a file with a nil error, and `File.ReadAll` on that file returns a
nil error and the bytes of the decimal digits of `v` (after a minus sign when
`v` is negative) followed by one newline byte. -/
theorem ReadAll_timeticks (typeString : Asn1BER → String) (pre post : List SnmpPDU)
    (name : String) (v : Int)
    (hb : GoMap.len (LoadWalk initial
      (pre ++ ⟨name, TimeTicks, Value.int v⟩ :: post)).cache < uint64Size - 1)
    (hpre : ∀ u ∈ pre, u.Name ≠ name) :
    ∃ f : File,
      Dir.Lookup (LoadWalk initial (pre ++ ⟨name, TimeTicks, Value.int v⟩ :: post)) name
        = (some f, none) ∧
      File.ReadAll typeString
          (LoadWalk initial (pre ++ ⟨name, TimeTicks, Value.int v⟩ :: post)) f
        = some (bytesOf (toString v) ++ [10], none) := by
  obtain ⟨f, hlookup, hentry⟩ :=
    Lookup_first_occurrence pre post ⟨name, TimeTicks, Value.int v⟩ hb hpre
  refine ⟨f, hlookup, ?_⟩
  have hnl : bytesOf "\n" = [10] := by decide
  have hne : TimeTicks ≠ OctetString := by decide
  simp only [File.ReadAll, hentry, hne, if_false, if_true, sprintfD, bytesOf_append, hnl]

/-- C13 on scenario B: the one duration-tick entry reads as `12345` and a
newline. -/
theorem ReadAll_timeticks_witness :
    GoMap.len (LoadWalk initial scenarioB).cache < uint64Size - 1 ∧
    ∃ f : File,
      Dir.Lookup (LoadWalk initial scenarioB) ".1.3.6.1.2.1.1.3.0" = (some f, none) ∧
      File.ReadAll (fun _ => "") (LoadWalk initial scenarioB) f
        = some (bytesOf "12345\n", none) :=
  ⟨by decide,
   (ReadAll_timeticks (fun _ => "") [] [] ".1.3.6.1.2.1.1.3.0" 12345 (by decide)
      (by decide)).imp fun _ h => ⟨h.1, h.2.trans (by decide)⟩⟩

/-! ## The order in which names are cached -/

theorem GoMap.mem_of_read_some {κ ν : Type} [DecidableEq κ] {m : GoMap κ ν} {k : κ} {v : ν}
    (h : GoMap.read m k = some v) : (k, v) ∈ m := by
  induction m with
  | nil => simp [GoMap.read] at h
  | cons p m ih =>
    obtain ⟨k₀, v₀⟩ := p
    by_cases h₀ : k₀ = k
    · simp only [GoMap.read, h₀, if_true, Option.some.injEq] at h
      simp [h₀, h]
    · simp only [GoMap.read, h₀, if_false] at h
      exact List.mem_cons_of_mem _ (ih h)

theorem GoMap.read_of_mem_nodup {κ ν : Type} [DecidableEq κ] {m : GoMap κ ν} {k : κ} {v : ν}
    (hm : (k, v) ∈ m) (hnd : (GoMap.keys m).Nodup) : GoMap.read m k = some v := by
  induction m with
  | nil => cases hm
  | cons p m ih =>
    obtain ⟨k₀, v₀⟩ := p
    simp only [GoMap.keys, List.map_cons, List.nodup_cons] at hnd
    rcases List.mem_cons.1 hm with heq | hmem
    · cases heq
      simp [GoMap.read]
    · have hne : k₀ ≠ k := by
        rintro rfl
        exact hnd.1 (List.mem_map.2 ⟨(k₀, v), hmem, rfl⟩)
      simp only [GoMap.read, hne, if_false]
      exact ih hmem hnd.2

theorem mem_firstNames (l : List String) (n : String) : n ∈ firstNames l ↔ n ∈ l := by
  induction l with
  | nil => simp [firstNames]
  | cons a l ih =>
    by_cases h : n = a
    · simp [firstNames, h]
    · simp [firstNames, h, ih]

theorem nodup_firstNames (l : List String) : (firstNames l).Nodup := by
  induction l with
  | nil => simp [firstNames]
  | cons a l ih =>
    simp only [firstNames, List.nodup_cons]
    exact ⟨by simp, ih.filter _⟩

/-- The number of names `firstNames` keeps outside a key list is the number
of distinct names outside it. -/
theorem length_filter_firstNames (l keys : List String) :
    ((firstNames l).filter fun m => m ∉ keys).length = (l.toFinset \ keys.toFinset).card := by
  rw [← List.toFinset_card_of_nodup ((nodup_firstNames l).filter _)]
  congr 1
  ext n
  simp [mem_firstNames]

/-- One turn of the loop adds the name of its result at the end of the cache
when the name is new, and leaves the keys alone when it is known. -/
theorem keys_cache_loadWalkStep {s : SnmpManager} (h : Inv s) (v : SnmpPDU) :
    GoMap.keys (loadWalkStep s v).cache
      = GoMap.keys s.cache ++ [v.Name].filter fun m => m ∉ GoMap.keys s.cache := by
  by_cases hk : v.Name ∈ GoMap.keys s.cache
  · have hp := (cacheAt_pos_iff h v.Name).2 ((GoMap.mem_keys_iff _ _).1 hk)
    rw [loadWalkStep_of_pos hp]
    simp [hk]
  · have hnone := (GoMap.not_mem_keys_iff _ _).1 hk
    have hp : ¬ 0 < (s.cacheAt v.Name).inode := by
      rw [cacheAt_pos_iff h]
      simp [hnone]
    rw [loadWalkStep_of_not_pos hp]
    simp only
    rw [GoMap.keys_write_of_read_none _ _ _ hnone]
    simp [hk]

/-- A walk adds its new names at the end of the cache in the order of their
first occurrence. -/
theorem keys_cache_LoadWalk {s : SnmpManager} (h : Inv s) (rs : List SnmpPDU)
    (hb : GoMap.len (LoadWalk s rs).cache < uint64Size - 1) :
    GoMap.keys (LoadWalk s rs).cache
      = GoMap.keys s.cache
          ++ (firstNames (rs.map SnmpPDU.Name)).filter fun m => m ∉ GoMap.keys s.cache := by
  induction rs generalizing s with
  | nil => simp [LoadWalk_nil, firstNames]
  | cons v rs ih =>
    rw [LoadWalk_cons] at hb ⊢
    have hstep := inv_loadWalkStep h v (lt_of_le_of_lt (len_cache_LoadWalk _ rs) hb)
    rw [ih hstep hb, keys_cache_loadWalkStep h v]
    by_cases hk : v.Name ∈ GoMap.keys s.cache
    · simp only [List.map_cons, firstNames, List.filter_cons, hk, not_true_eq_false,
        decide_False, Bool.false_eq_true, if_false, List.filter_nil, List.append_nil,
        List.filter_filter]
      congr 1
      apply List.filter_congr
      intro m _
      by_cases hm : m ∈ GoMap.keys s.cache
      · simp [hm]
      · have : m ≠ v.Name := fun heq => hm (heq ▸ hk)
        simp [hm, this]
    · simp only [List.map_cons, firstNames, List.filter_cons, hk, not_false_eq_true,
        decide_True, if_true, List.filter_nil, List.append_assoc, List.singleton_append,
        List.filter_filter]
      congr 2
      apply List.filter_congr
      intro m _
      simp only [List.mem_append, List.mem_singleton, not_or, decide_not, decide_eq_true_eq,
        Bool.decide_and, Bool.and_comm]

theorem keys_cache_LoadWalk_initial (rs : List SnmpPDU)
    (hb : GoMap.len (LoadWalk initial rs).cache < uint64Size - 1) :
    GoMap.keys (LoadWalk initial rs).cache = firstNames (rs.map SnmpPDU.Name) := by
  rw [keys_cache_LoadWalk inv_initial rs hb]
  simp [initial, GoMap.keys]

/-- Under the invariant every stored pair is what reading its key yields, and
the entry carries its key as the PDU name. -/
theorem read_of_mem_cache {s : SnmpManager} (h : Inv s) {kv : String × SnmpCacheEntry}
    (hkv : kv ∈ s.cache) :
    GoMap.read s.cache kv.1 = some kv.2 ∧ kv.2.pdu.Name = kv.1 ∧ s.cacheAt kv.1 = kv.2 := by
  have hread : GoMap.read s.cache kv.1 = some kv.2 :=
    GoMap.read_of_mem_nodup (show (kv.1, kv.2) ∈ s.cache from hkv) h.nodupCache
  exact ⟨hread, (h.fwd _ _ hread).2.2.2, GoMap.index_of_read_some hread⟩

/-- Under the invariant the names `Dir.ReadDirAll` lists are the keys of the
cache, in the same order. -/
theorem names_ReadDirAll {s : SnmpManager} (h : Inv s) :
    (Dir.ReadDirAll s).1.map fuse.Dirent.Name = GoMap.keys s.cache := by
  simp only [Dir.ReadDirAll, List.map_map, GoMap.keys]
  apply List.map_congr_left
  intro kv hkv
  exact (read_of_mem_cache h hkv).2.1

/-- Under the invariant the entries `Dir.ReadDirAll` lists are the cached
names with their inodes. -/
theorem mem_ReadDirAll_iff {s : SnmpManager} (h : Inv s) (d : fuse.Dirent) :
    d ∈ (Dir.ReadDirAll s).1 ↔
      ∃ n ∈ GoMap.keys s.cache, d = ⟨(s.cacheAt n).inode, n, fuse.DirentType.DT_File⟩ := by
  simp only [Dir.ReadDirAll, List.mem_map]
  constructor
  · rintro ⟨kv, hkv, rfl⟩
    obtain ⟨hread, hname, hat⟩ := read_of_mem_cache h hkv
    exact ⟨kv.1, (GoMap.mem_keys_iff _ _).2 ⟨_, hread⟩, by rw [hat, hname]⟩
  · rintro ⟨n, hn, rfl⟩
    obtain ⟨e, he⟩ := (GoMap.mem_keys_iff _ _).1 hn
    refine ⟨(n, e), GoMap.mem_of_read_some he, ?_⟩
    have hat : s.cacheAt n = e := GoMap.index_of_read_some he
    rw [hat, (h.fwd n e he).2.2.2]

/-! ## The directory listing -/

/-- C14. The directory listing is complete and exact: after `LoadWalk` from
the initial state over any result list `rs` (cache below `2 ^ 64 - 1` names),
`Dir.ReadDirAll` returns a nil error and a list whose members are exactly the
entries `(cache[n].inode, n, DT_File)` for the names `n` occurring in `rs`;
no name is listed twice, and the list has one entry per distinct name. -/
theorem ReadDirAll_exact (rs : List SnmpPDU)
    (hb : GoMap.len (LoadWalk initial rs).cache < uint64Size - 1) :
    (Dir.ReadDirAll (LoadWalk initial rs)).2 = none ∧
    (∀ d, d ∈ (Dir.ReadDirAll (LoadWalk initial rs)).1 ↔
      ∃ n ∈ rs.map SnmpPDU.Name,
        d = ⟨((LoadWalk initial rs).cacheAt n).inode, n, fuse.DirentType.DT_File⟩) ∧
    ((Dir.ReadDirAll (LoadWalk initial rs)).1.map fuse.Dirent.Name).Nodup ∧
    (Dir.ReadDirAll (LoadWalk initial rs)).1.length = (rs.map SnmpPDU.Name).toFinset.card := by
  have hinv := inv_LoadWalk inv_initial rs hb
  have hkeys := keys_cache_LoadWalk_initial rs hb
  refine ⟨rfl, ?_, ?_, ?_⟩
  · intro d
    rw [mem_ReadDirAll_iff hinv, hkeys]
    simp only [mem_firstNames]
  · rw [names_ReadDirAll hinv]
    exact hinv.nodupCache
  · have hlen : (Dir.ReadDirAll (LoadWalk initial rs)).1.length
        = (GoMap.keys (LoadWalk initial rs).cache).length := by
      rw [← names_ReadDirAll hinv, List.length_map]
    rw [hlen, hkeys, ← List.toFinset_card_of_nodup (nodup_firstNames _)]
    congr 1
    ext n
    simp [mem_firstNames]

/-- C14 on scenario A: the one-element walk lists exactly one entry. -/
theorem ReadDirAll_exact_witness :
    GoMap.len (LoadWalk initial scenarioA).cache < uint64Size - 1 ∧
    (Dir.ReadDirAll (LoadWalk initial scenarioA)).1.length = 1 ∧
    Dir.ReadDirAll (LoadWalk initial scenarioA)
      = ([⟨1, ".1.3.6.1.2.1.1.1.0", fuse.DirentType.DT_File⟩], none) :=
  ⟨by decide, (ReadDirAll_exact scenarioA (by decide)).2.2.2.trans (by decide), by decide⟩

/-- C17. Listing and lookup agree: in every reachable state (cache below
`2 ^ 64 - 1` names) every cache key stores a PDU whose `Name` is the key, and
for every entry `d` that `Dir.ReadDirAll` returns, `Dir.Lookup` of `d.Name`
returns a nil error and the `File` with the inode `d.Inode`. -/
theorem ReadDirAll_Lookup_agree (s : SnmpManager) (hs : Reachable s)
    (hb : GoMap.len s.cache < uint64Size - 1) :
    (∀ k e, GoMap.read s.cache k = some e → e.pdu.Name = k) ∧
    (∀ d ∈ (Dir.ReadDirAll s).1, Dir.Lookup s d.Name = (some ⟨d.Inode⟩, none)) := by
  have hinv := reachable_inv hs hb
  refine ⟨fun k e he => (hinv.fwd k e he).2.2.2, ?_⟩
  intro d hd
  obtain ⟨n, hn, rfl⟩ := (mem_ReadDirAll_iff hinv d).1 hd
  have hpos := (cacheAt_pos_iff hinv n).2 ((GoMap.mem_keys_iff _ _).1 hn)
  simp only [Dir.Lookup, gt_iff_lt, hpos, if_true]

/-- C17 after two walks: the name the second walk added is listed under
inode 4 and looked up under inode 4. -/
theorem ReadDirAll_Lookup_agree_witness :
    GoMap.len (LoadWalk (LoadWalk initial sampleWalk) sampleRewalk).cache < uint64Size - 1 ∧
    (⟨4, ".1.3.6.1.2.1.1.5.0", fuse.DirentType.DT_File⟩ : fuse.Dirent)
      ∈ (Dir.ReadDirAll (LoadWalk (LoadWalk initial sampleWalk) sampleRewalk)).1 ∧
    Dir.Lookup (LoadWalk (LoadWalk initial sampleWalk) sampleRewalk) ".1.3.6.1.2.1.1.5.0"
      = (some ⟨4⟩, none) :=
  ⟨by decide, by decide,
   (ReadDirAll_Lookup_agree _
      (Reachable.walk sampleRewalk (Reachable.walk sampleWalk Reachable.init)) (by decide)).2
      ⟨4, ".1.3.6.1.2.1.1.5.0", fuse.DirentType.DT_File⟩ (by decide)⟩

/-! ## The inode counter -/

/-- A name that a walk caches anew gets an inode at or above the counter the
walk started with. -/
theorem le_inode_of_new {s : SnmpManager} (h : Inv s) (rs : List SnmpPDU)
    (hb : GoMap.len (LoadWalk s rs).cache < uint64Size - 1) {n : String} {e : SnmpCacheEntry}
    (hnew : GoMap.read s.cache n = none)
    (he : GoMap.read (LoadWalk s rs).cache n = some e) : s.currentId ≤ e.inode := by
  induction rs generalizing s with
  | nil =>
    rw [LoadWalk_nil, hnew] at he
    cases he
  | cons v rs ih =>
    rw [LoadWalk_cons] at hb he
    have hstep := inv_loadWalkStep h v (lt_of_le_of_lt (len_cache_LoadWalk _ rs) hb)
    cases hs1 : GoMap.read (loadWalkStep s v).cache n with
    | none =>
      have hle := ih hstep hb hs1 he
      have hmono := len_cache_loadWalkStep s v
      have h0 := h.counter
      have h1 := hstep.counter
      omega
    | some e₁ =>
      have hkeep := read_cache_LoadWalk_of_some hstep rs hb hs1
      rw [hkeep] at he
      cases he
      by_cases hp : 0 < (s.cacheAt v.Name).inode
      · rw [loadWalkStep_of_pos hp, hnew] at hs1
        cases hs1
      · rw [loadWalkStep_of_not_pos hp] at hs1
        simp only at hs1
        by_cases hn : v.Name = n
        · rw [hn, GoMap.read_write_self] at hs1
          cases hs1
          exact le_refl _
        · rw [GoMap.read_write_ne _ _ hn, hnew] at hs1
          cases hs1

/-- C15. Counter accounting: for every reachable state `s` and result list
`rs` (cache after the walk below `2 ^ 64 - 1` names), after `LoadWalk` over
`rs` the counter `currentId` is its value in `s` plus the number of distinct
names of `rs` not cached in `s`; it has not decreased; it is 1 plus the number
of cached names; every cached inode is strictly below it; and every name the
walk cached anew has an inode at or above the counter of `s`, hence different
from every inode handed out before. -/
theorem currentId_accounting (s : SnmpManager) (rs : List SnmpPDU) (hs : Reachable s)
    (hb : GoMap.len (LoadWalk s rs).cache < uint64Size - 1) :
    (LoadWalk s rs).currentId
      = s.currentId + ((rs.map SnmpPDU.Name).toFinset \ (GoMap.keys s.cache).toFinset).card ∧
    s.currentId ≤ (LoadWalk s rs).currentId ∧
    (LoadWalk s rs).currentId = 1 + GoMap.len (LoadWalk s rs).cache ∧
    (∀ n ∈ GoMap.keys (LoadWalk s rs).cache,
      ((LoadWalk s rs).cacheAt n).inode < (LoadWalk s rs).currentId) ∧
    (∀ n ∈ GoMap.keys (LoadWalk s rs).cache, n ∉ GoMap.keys s.cache →
      s.currentId ≤ ((LoadWalk s rs).cacheAt n).inode) := by
  have hinv := reachable_inv hs (lt_of_le_of_lt (len_cache_LoadWalk s rs) hb)
  have hinv' := inv_LoadWalk hinv rs hb
  have hlen : GoMap.len (LoadWalk s rs).cache = GoMap.len s.cache
      + ((rs.map SnmpPDU.Name).toFinset \ (GoMap.keys s.cache).toFinset).card := by
    have hkeys := congrArg List.length (keys_cache_LoadWalk hinv rs hb)
    rw [List.length_append, length_filter_firstNames] at hkeys
    simpa [GoMap.keys, GoMap.len] using hkeys
  have hc := hinv.counter
  have hc' := hinv'.counter
  refine ⟨by omega, by omega, by omega, ?_, ?_⟩
  · intro n hn
    obtain ⟨e, he⟩ := (GoMap.mem_keys_iff _ _).1 hn
    have hat : (LoadWalk s rs).cacheAt n = e := GoMap.index_of_read_some he
    rw [hat]
    exact (hinv'.fwd n e he).2.1
  · intro n hn hnew
    obtain ⟨e, he⟩ := (GoMap.mem_keys_iff _ _).1 hn
    have hat : (LoadWalk s rs).cacheAt n = e := GoMap.index_of_read_some he
    rw [hat]
    exact le_inode_of_new hinv rs hb ((GoMap.not_mem_keys_iff _ _).1 hnew) he

/-- C15 on a second walk: one of its two names is new, the counter goes from
4 to 5. -/
theorem currentId_accounting_witness :
    GoMap.len (LoadWalk (LoadWalk initial sampleWalk) sampleRewalk).cache < uint64Size - 1 ∧
    (LoadWalk initial sampleWalk).currentId = 4 ∧
    ((sampleRewalk.map SnmpPDU.Name).toFinset
      \ (GoMap.keys (LoadWalk initial sampleWalk).cache).toFinset).card = 1 ∧
    (LoadWalk (LoadWalk initial sampleWalk) sampleRewalk).currentId = 5 :=
  ⟨by decide, by decide, by decide,
   (currentId_accounting (LoadWalk initial sampleWalk) sampleRewalk
      (Reachable.walk sampleWalk Reachable.init) (by decide)).1.trans (by decide)⟩

/-! ## The inode of the directory -/

/-- An entry with a positive inode survives one turn of the loop, whatever
the counter has done. -/
theorem read_cache_loadWalkStep_of_pos (s : SnmpManager) (v : SnmpPDU) {n : String}
    {e : SnmpCacheEntry} (he : GoMap.read s.cache n = some e) (hpos : 0 < e.inode) :
    GoMap.read (loadWalkStep s v).cache n = some e := by
  by_cases hn : v.Name = n
  · have hat : s.cacheAt v.Name = e := by
      rw [hn]
      exact GoMap.index_of_read_some he
    rw [loadWalkStep_of_pos (by rw [hat]; exact hpos)]
    exact he
  · rw [read_cache_loadWalkStep_of_ne s v hn]
    exact he

theorem read_cache_LoadWalk_of_pos (s : SnmpManager) (rs : List SnmpPDU) {n : String}
    {e : SnmpCacheEntry} (he : GoMap.read s.cache n = some e) (hpos : 0 < e.inode) :
    GoMap.read (LoadWalk s rs).cache n = some e := by
  induction rs generalizing s with
  | nil => exact he
  | cons v rs ih =>
    rw [LoadWalk_cons]
    exact ih _ (read_cache_loadWalkStep_of_pos s v he hpos)

/-- After `LoadWalk` from the initial state over any non-empty result list,
the first name of the walk is cached under inode 1: `Dir.Lookup` returns the
file with inode 1, `Dir.ReadDirAll` lists inode 1 and `File.Attr` reports it,
and 1 is the inode `Dir.Attr` reports for the directory. -/
theorem first_file_shares_dir_inode (v : SnmpPDU) (rs : List SnmpPDU) (a : fuse.Attr) :
    Dir.Lookup (LoadWalk initial (v :: rs)) v.Name = (some ⟨1⟩, none) ∧
    (∃ d ∈ (Dir.ReadDirAll (LoadWalk initial (v :: rs))).1,
      d.Name = v.Name ∧ d.Inode = (Dir.Attr a).1.Inode) ∧
    (File.Attr ⟨1⟩ a).1.Inode = (Dir.Attr a).1.Inode ∧
    (Dir.Attr a).1.Inode = 1 := by
  have hfirst : GoMap.read (loadWalkStep initial v).cache v.Name = some ⟨v, 1⟩ := by
    simp [loadWalkStep, initial, SnmpManager.cacheAt, GoMap.index, GoMap.read, GoMap.write,
      zeroEntry]
  have hread : GoMap.read (LoadWalk initial (v :: rs)).cache v.Name = some ⟨v, 1⟩ := by
    rw [LoadWalk_cons]
    exact read_cache_LoadWalk_of_pos _ rs hfirst Nat.one_pos
  have hat : (LoadWalk initial (v :: rs)).cacheAt v.Name = ⟨v, 1⟩ :=
    GoMap.index_of_read_some hread
  refine ⟨?_, ?_, rfl, rfl⟩
  · simp [Dir.Lookup, hat]
  · refine ⟨⟨1, v.Name, fuse.DirentType.DT_File⟩, ?_, rfl, rfl⟩
    simp only [Dir.ReadDirAll, List.mem_map]
    exact ⟨(v.Name, ⟨v, 1⟩), GoMap.mem_of_read_some hread, rfl⟩

/-- C16 as stated fails.  After the walk of scenario A the one file is listed
by `Dir.ReadDirAll` with the inode 1, `Dir.Lookup` returns it as
`File{Inode: 1}` and `File.Attr` reports inode 1 for it, the inode `Dir.Attr`
reports for the directory. -/
theorem dir_inode_not_unique :
    (∃ d ∈ (Dir.ReadDirAll (LoadWalk initial scenarioA)).1,
      d.Inode = (Dir.Attr ⟨0, 0, 0⟩).1.Inode) ∧
    Dir.Lookup (LoadWalk initial scenarioA) ".1.3.6.1.2.1.1.1.0" = (some ⟨1⟩, none) ∧
    (File.Attr ⟨1⟩ ⟨0, 0, 0⟩).1.Inode = (Dir.Attr ⟨0, 0, 0⟩).1.Inode := by
  decide

/-- C16 as amended. After `LoadWalk` from the initial state over any
non-empty result list (cache below `2 ^ 64 - 1` names), the directory's inode
1 is the inode of exactly one file, the file of the first name of the walk:
`Dir.Lookup` returns that file with inode 1, `File.Attr` reports for it the
inode `Dir.Attr` reports for the directory, and an entry of `Dir.ReadDirAll`
has the directory's inode if and only if its name is the first name of the
walk; the inode of every other file differs from the directory's. -/
theorem dir_inode_shared_once (v : SnmpPDU) (rs : List SnmpPDU) (a : fuse.Attr)
    (hb : GoMap.len (LoadWalk initial (v :: rs)).cache < uint64Size - 1) :
    Dir.Lookup (LoadWalk initial (v :: rs)) v.Name = (some ⟨1⟩, none) ∧
    (File.Attr ⟨1⟩ a).1.Inode = (Dir.Attr a).1.Inode ∧
    (Dir.Attr a).1.Inode = 1 ∧
    (∃ d ∈ (Dir.ReadDirAll (LoadWalk initial (v :: rs))).1, d.Name = v.Name) ∧
    (∀ d ∈ (Dir.ReadDirAll (LoadWalk initial (v :: rs))).1,
      (d.Inode = (Dir.Attr a).1.Inode ↔ d.Name = v.Name)) := by
  have hinv := inv_LoadWalk inv_initial (v :: rs) hb
  obtain ⟨hlookup, ⟨d₀, hd₀, hname₀, _⟩, hattr, hdir⟩ := first_file_shares_dir_inode v rs a
  refine ⟨hlookup, hattr, hdir, ⟨d₀, hd₀, hname₀⟩, ?_⟩
  have hpos : 0 < ((LoadWalk initial (v :: rs)).cacheAt v.Name).inode := by
    by_contra hnp
    simp [Dir.Lookup, hnp] at hlookup
  have hone : ((LoadWalk initial (v :: rs)).cacheAt v.Name).inode = 1 := by
    simp only [Dir.Lookup, gt_iff_lt, hpos, if_true, Prod.mk.injEq, Option.some.injEq,
      File.mk.injEq, and_true] at hlookup
    exact hlookup
  have hvkey : v.Name ∈ GoMap.keys (LoadWalk initial (v :: rs)).cache :=
    (GoMap.mem_keys_iff _ _).2 ((cacheAt_pos_iff hinv v.Name).1 hpos)
  intro d hd
  obtain ⟨n, hn, rfl⟩ := (mem_ReadDirAll_iff hinv d).1 hd
  rw [hdir]
  constructor
  · intro h1
    have r₁ := read_cacheMap_cacheAt hinv hn
    have r₂ := read_cacheMap_cacheAt hinv hvkey
    simp only at h1
    rw [h1] at r₁
    rw [hone, r₁] at r₂
    exact Option.some.inj r₂
  · intro hname
    simp only at hname
    rw [hname]
    exact hone

/-- C16 as amended, on the sample walk: the file of the first name has the
directory's inode 1, the file listed under inode 2 has another name. -/
theorem dir_inode_shared_once_witness :
    GoMap.len (LoadWalk initial sampleWalk).cache < uint64Size - 1 ∧
    Dir.Lookup (LoadWalk initial sampleWalk) ".1.3.6.1.2.1.1.1.0" = (some ⟨1⟩, none) ∧
    (⟨2, ".1.3.6.1.2.1.1.3.0", fuse.DirentType.DT_File⟩ : fuse.Dirent)
      ∈ (Dir.ReadDirAll (LoadWalk initial sampleWalk)).1 ∧
    ¬ ((2 : Nat) = (Dir.Attr ⟨0, 0, 0⟩).1.Inode) :=
  ⟨by decide,
   (dir_inode_shared_once ⟨".1.3.6.1.2.1.1.1.0", OctetString, Value.str (bytesOf "test-system")⟩
      sampleWalk.tail ⟨0, 0, 0⟩ (by decide)).1,
   by decide,
   fun h => absurd
     (((dir_inode_shared_once
        ⟨".1.3.6.1.2.1.1.1.0", OctetString, Value.str (bytesOf "test-system")⟩
        sampleWalk.tail ⟨0, 0, 0⟩ (by decide)).2.2.2.2
        ⟨2, ".1.3.6.1.2.1.1.3.0", fuse.DirentType.DT_File⟩ (by decide)).1 h)
     (by decide)⟩

/-! ## Inodes in the order of first occurrence -/

/-- One turn of the loop keeps the stored inodes counting up from 1. -/
theorem inodes_cache_loadWalkStep {s : SnmpManager} (h : Inv s) (v : SnmpPDU)
    (hord : (s.cache.map fun kv => kv.2.inode) = List.range' 1 (GoMap.len s.cache)) :
    ((loadWalkStep s v).cache.map fun kv => kv.2.inode)
      = List.range' 1 (GoMap.len (loadWalkStep s v).cache) := by
  by_cases hp : 0 < (s.cacheAt v.Name).inode
  · rw [loadWalkStep_of_pos hp]
    exact hord
  · have hnone : GoMap.read s.cache v.Name = none := by
      cases hr : GoMap.read s.cache v.Name with
      | none => rfl
      | some e => exact absurd ((cacheAt_pos_iff h v.Name).2 ⟨e, hr⟩) hp
    rw [loadWalkStep_of_not_pos hp]
    simp only
    rw [GoMap.len_write_of_read_none _ _ _ hnone, GoMap.write_of_read_none _ _ _ hnone,
      List.map_append, hord, List.range'_1_concat, h.counter]
    simp [Nat.add_comm]

/-- A walk keeps the stored inodes counting up from 1. -/
theorem inodes_cache_LoadWalk {s : SnmpManager} (h : Inv s) (rs : List SnmpPDU)
    (hb : GoMap.len (LoadWalk s rs).cache < uint64Size - 1)
    (hord : (s.cache.map fun kv => kv.2.inode) = List.range' 1 (GoMap.len s.cache)) :
    ((LoadWalk s rs).cache.map fun kv => kv.2.inode)
      = List.range' 1 (GoMap.len (LoadWalk s rs).cache) := by
  induction rs generalizing s with
  | nil => exact hord
  | cons v rs ih =>
    rw [LoadWalk_cons] at hb ⊢
    exact ih (inv_loadWalkStep h v (lt_of_le_of_lt (len_cache_LoadWalk _ rs) hb)) hb
      (inodes_cache_loadWalkStep h v hord)

/-- After a walk from the initial state, the name at place `j` (from 0) among
the distinct names in first-occurrence order has the inode `j + 1`. -/
theorem inode_of_firstNames (rs : List SnmpPDU)
    (hb : GoMap.len (LoadWalk initial rs).cache < uint64Size - 1) (j : Nat) (n : String)
    (hj : (firstNames (rs.map SnmpPDU.Name))[j]? = some n) :
    ((LoadWalk initial rs).cacheAt n).inode = j + 1 := by
  have hinv := inv_LoadWalk inv_initial rs hb
  have hkeys := keys_cache_LoadWalk_initial rs hb
  have hord := inodes_cache_LoadWalk inv_initial rs hb rfl
  rw [← hkeys, GoMap.keys, List.getElem?_map] at hj
  cases hkv : (LoadWalk initial rs).cache[j]? with
  | none => rw [hkv] at hj; cases hj
  | some kv =>
    rw [hkv] at hj
    simp only [Option.map_some', Option.some.injEq] at hj
    have hlt : j < GoMap.len (LoadWalk initial rs).cache :=
      (List.getElem?_eq_some.1 hkv).1
    have hin := congrArg (fun l => l[j]?) hord
    simp only [List.getElem?_map, hkv, Option.map_some', List.getElem?_range' 1 1 hlt] at hin
    obtain ⟨_, _, hat⟩ := read_of_mem_cache hinv (List.getElem?_mem hkv)
    rw [← hj, hat]
    simp only [Option.some.injEq] at hin
    omega

/-- C18. Inodes are assigned densely in first-occurrence order: after
`LoadWalk` from the initial state over a result list `rs` (cache below
`2 ^ 64 - 1` names), the cached names are the distinct names of `rs` in the
order of their first occurrence; the name at place `j` of that order,
counted from 0, has the inode `j + 1`; and the inodes of the cached names are
exactly the numbers from 1 to the number of distinct names. -/
theorem inode_dense (rs : List SnmpPDU)
    (hb : GoMap.len (LoadWalk initial rs).cache < uint64Size - 1) :
    GoMap.keys (LoadWalk initial rs).cache = firstNames (rs.map SnmpPDU.Name) ∧
    (∀ j n, (firstNames (rs.map SnmpPDU.Name))[j]? = some n →
      ((LoadWalk initial rs).cacheAt n).inode = j + 1) ∧
    (∀ i, (∃ n ∈ GoMap.keys (LoadWalk initial rs).cache,
        ((LoadWalk initial rs).cacheAt n).inode = i)
      ↔ 1 ≤ i ∧ i ≤ (firstNames (rs.map SnmpPDU.Name)).length) := by
  have hkeys := keys_cache_LoadWalk_initial rs hb
  refine ⟨hkeys, inode_of_firstNames rs hb, ?_⟩
  intro i
  constructor
  · rintro ⟨n, hn, rfl⟩
    rw [hkeys] at hn
    obtain ⟨j, hj⟩ := List.mem_iff_getElem?.1 hn
    have hlt := (List.getElem?_eq_some.1 hj).1
    rw [inode_of_firstNames rs hb j n hj]
    omega
  · rintro ⟨h1, hk⟩
    have hlt : i - 1 < (firstNames (rs.map SnmpPDU.Name)).length := by omega
    have hj : (firstNames (rs.map SnmpPDU.Name))[i - 1]?
        = some ((firstNames (rs.map SnmpPDU.Name))[i - 1]) := List.getElem?_eq_getElem hlt
    refine ⟨_, ?_, (inode_of_firstNames rs hb (i - 1) _ hj).trans (by omega)⟩
    rw [hkeys]
    exact List.getElem?_mem hj

/-- C18 on the sample walk: its third distinct name, first met as the fourth
result, has inode 3. -/
theorem inode_dense_witness :
    GoMap.len (LoadWalk initial sampleWalk).cache < uint64Size - 1 ∧
    (firstNames (sampleWalk.map SnmpPDU.Name))[2]? = some ".1.3.6.1.2.1.1.7.0" ∧
    ((LoadWalk initial sampleWalk).cacheAt ".1.3.6.1.2.1.1.7.0").inode = 3 :=
  ⟨by decide, by decide,
   (inode_dense sampleWalk (by decide)).2.1 2 ".1.3.6.1.2.1.1.7.0" (by decide)⟩

end FuseSnmp
